import Mathlib

/-!
# Verification of the 5GC config-preprocessor transformation pipeline

Shallow embedding of the core pipeline of the `5gc-config-preprocessor`
repository (`src/chunker.py`, `src/desensitizer.py`, `src/format_converter.py`,
`src/metadata_extractor.py`, `src/preprocessor.py`) and proofs about it.

Modelling conventions:
* Python `str` values are modelled as `List Char` (named `Line` below when the
  value is a single line of text).  `'\n'.join` / `split('\n')` are modelled by
  `joinNl` / `splitNl`.
* Python `dict` values are modelled as insertion-ordered association lists.
* Compiled regular expressions that come from the runtime configuration file
  `config.yaml` (which is not part of the source tree) are modelled as
  match-at-position functions; the concrete default patterns are modelled from
  the specification and from the repository's own `api/simple.py` defaults.
* Machine integers are `Nat`/`Int`; Python float rounding (`round(x, 2)`) is
  modelled exactly on `ℚ` with round-half-to-even, which agrees with CPython on
  the values reachable here (`bytes / 2^20` is exactly representable).
-/

set_option maxHeartbeats 1000000

set_option maxRecDepth 10000

abbrev Line : Type := List Char

/-! ## Basic text helpers: Python `split('\n')`, `'\n'.join`, `strip`, `lower` -/

/-- Python `text.split('\n')`: always returns at least one (possibly empty)
fragment. -/
def splitNl : List Char → List (List Char)
  | [] => [[]]
  | c :: rest =>
    match splitNl rest with
    | [] => [[]]
    | l :: ls => if c = '\n' then [] :: l :: ls else (c :: l) :: ls

/-- Python `'\n'.join(lines)`. -/
def joinNl : List (List Char) → List Char
  | [] => []
  | [l] => l
  | l :: ls => l ++ '\n' :: joinNl ls

/-- Python whitespace characters recognised by `str.strip()` /
`str.isspace()`. -/
def isPyWs (c : Char) : Bool :=
  c = ' ' || c = '\t' || c = '\n' || c = '\r' || c = '\x0b' || c = '\x0c'

/-- Python `s.lstrip()`. -/
def pyLStrip (s : List Char) : List Char := s.dropWhile isPyWs

/-- Python `s.rstrip()`. -/
def pyRStrip (s : List Char) : List Char := (s.reverse.dropWhile isPyWs).reverse

/-- Python `s.strip()`. -/
def pyStrip (s : List Char) : List Char := pyRStrip (pyLStrip s)

/-- Does `s` start with the pattern `pat` (Python `s.startswith(pat)` /
anchored literal match)? -/
def startsWithL : List Char → List Char → Bool
  | [], _ => true
  | _ :: _, [] => false
  | p :: ps, c :: cs => p = c && startsWithL ps cs

/-- Python substring containment `pat in s`. -/
def containsSub (pat : List Char) : List Char → Bool
  | [] => startsWithL pat []
  | s@(_ :: cs) => startsWithL pat s || containsSub pat cs

/-- Python `s.lower()` (ASCII case folding; sufficient for the keyword sets
used by the pipeline). -/
def lowerL (s : List Char) : List Char := s.map Char.toLower

/-- UTF-8 byte length of one scalar value (`len(c.encode('utf-8'))`). -/
def utf8CharLen (c : Char) : Nat :=
  if c.toNat < 0x80 then 1
  else if c.toNat < 0x800 then 2
  else if c.toNat < 0x10000 then 3
  else 4

/-- Python `len(s.encode('utf-8'))`. -/
def utf8Len (s : List Char) : Nat := (s.map utf8CharLen).sum

/-- Distinct values of a list in first-seen order, skipping values already in
`seen`: the model used for Python's `list(set(...))` materialisations (set
iteration order is modelled as insertion order) and for first-seen-ordered
`dict` key accumulation. -/
def dedupFirstAux (seen : List (List Char)) : List (List Char) → List (List Char)
  | [] => []
  | x :: xs =>
    if x ∈ seen then dedupFirstAux seen xs
    else x :: dedupFirstAux (seen ++ [x]) xs

/-- Distinct values of a list in first-seen order. -/
def dedupFirst (l : List (List Char)) : List (List Char) := dedupFirstAux [] l

/-! ## Chunker (`src/chunker.py`, class `SmartChunker`) -/

/-- `ConfigChunk` dataclass (`chunker.py`).  The `metadata` dict (strategy
name and counts, never read back by any pipeline code) is omitted. -/
structure ConfigChunk where
  chunk_id : Nat
  start_line : Nat
  end_line : Nat
  content : List Char
  features : List (List Char)
  overlap_start : Option Nat := none
  overlap_end : Option Nat := none
deriving DecidableEq

/-- The fixed feature keyword list of `SmartChunker._extract_features`. -/
def feature_keywords : List (List Char) :=
  ["PLMN".data, "TAC".data, "AMF".data, "SMF".data, "UPF".data, "NRF".data,
   "UDM".data, "AUSF".data, "NSSF".data, "PCF".data, "BSF".data, "CHF".data,
   "SEPP".data, "SCP".data, "slice".data, "DNN".data, "APN".data, "QoS".data,
   "bearer".data, "session".data, "roaming".data, "handover".data,
   "authentication".data, "security".data, "charging".data, "billing".data,
   "policy".data, "routing".data]

/-- `SmartChunker._extract_features`: keywords found (case-insensitively) in
the line, in keyword-list order. -/
def extract_features (line : Line) : List (List Char) :=
  let lower := lowerL line
  feature_keywords.filter (fun kw => containsSub (lowerL kw) lower)

/-- Chunker configuration (the `chunking:` section of `config.yaml`).
Compiled preserve-block regexes are modelled as `finditer`-style functions
returning the matched character spans `(start, end)` of each match. -/
structure ChunkCfg where
  enabled : Bool
  strategy : List Char
  chunk_size_lines : Nat
  chunk_size_kb : Nat
  overlap_lines : Nat
  section_markers : List (List Char)
  preserve_find : List (List Char → List (Nat × Nat))

/-- `SmartChunker._create_chunk` (metadata dict omitted, see `ConfigChunk`). -/
def create_chunk (chunk_id start_line end_line : Nat) (lines : List Line)
    (features : List (List Char)) : ConfigChunk :=
  { chunk_id := chunk_id, start_line := start_line, end_line := end_line,
    content := joinNl lines, features := features }

/-- The chunk built by one iteration of `_fixed_lines_chunking`'s loop:
window index `k`, stride `s`, slice `lines[i : i + chunk_size_lines]`. -/
def fl_chunk (cfg : ChunkCfg) (lines : List (List Char)) (s k : Nat) : ConfigChunk :=
  let L := lines.length
  let i := k * s
  let start_line := i + 1
  let end_line := min (i + cfg.chunk_size_lines) L
  let chunk_lines := (lines.drop i).take (end_line - i)
  let features := dedupFirst (chunk_lines.flatMap extract_features)
  { chunk_id := k, start_line := start_line, end_line := end_line,
    content := joinNl chunk_lines, features := features,
    overlap_start := if 0 < i then some (max 1 (i + 1 - cfg.overlap_lines)) else none,
    overlap_end := if end_line < L then some (min L (end_line + cfg.overlap_lines)) else none }

/-- `SmartChunker._fixed_lines_chunking`.

Python iterates `for i in range(0, len(lines), step)` with
`step = chunk_size_lines - overlap_lines` (an `int` that may be zero or
negative).  `range` raises `ValueError` on a zero step (modelled as
`Except.error`); a negative step with `0 < len(lines)` yields an empty
iteration.  For a positive step `s`, `range(0, L, s)` is the list
`[0, s, 2*s, ...]` of length `⌈L / s⌉` (CPython's documented semantics),
which is embedded in closed form below; the `chunk_id` counter equals the
iteration index. -/
def fixed_lines_chunking (cfg : ChunkCfg) (text : List Char) :
    Except (List Char) (List ConfigChunk) :=
  let lines := splitNl text
  let L := lines.length
  let step : Int := (cfg.chunk_size_lines : Int) - (cfg.overlap_lines : Int)
  if step = 0 then
    .error "ValueError: range() arg 3 must not be zero".data
  else if step < 0 then
    .ok []
  else
    let s := step.toNat
    .ok ((List.range ((L + s - 1) / s)).map (fl_chunk cfg lines s))

/-- Loop state of `SmartChunker._fixed_size_chunking`. -/
structure FsState where
  chunks : List ConfigChunk
  cur : List Line
  curSize : Nat
  curStart : Nat

/-- The chunk flushed by `_fixed_size_chunking` (both at a cut and in the
epilogue): the buffered lines, ending at `end_line = line_no - 1` (at the
epilogue `line_no = len(lines) + 1`). -/
def fs_flush_chunk (st : FsState) (lineNo : Nat) : ConfigChunk :=
  { chunk_id := st.chunks.length, start_line := st.curStart,
    end_line := lineNo - 1, content := joinNl st.cur,
    features := dedupFirst (st.cur.flatMap extract_features) }

/-- State after a cut followed by appending the current line. -/
def fs_flush_state (st : FsState) (line : Line) (lineNo : Nat) : FsState :=
  { chunks := st.chunks ++ [fs_flush_chunk st lineNo],
    cur := [] ++ [line], curSize := 0 + utf8Len line, curStart := lineNo }

/-- State after appending the current line without a cut. -/
def fs_keep_state (st : FsState) (line : Line) : FsState :=
  { st with cur := st.cur ++ [line], curSize := st.curSize + utf8Len line }

/-- Loop body and epilogue of `SmartChunker._fixed_size_chunking`, walking
the remaining lines with their 1-based line numbers: flush before appending
a line that would push the chunk over the byte budget (`if current_size +
line_size > target_size and current_chunk_lines`), then append; finally
flush the non-empty remainder. -/
def fixed_size_go (target : Nat) : List Line → Nat → FsState → List ConfigChunk
  | [], lineNo, st =>
    if st.cur = [] then st.chunks
    else st.chunks ++ [fs_flush_chunk st lineNo]
  | line :: rest, lineNo, st =>
    if st.curSize + utf8Len line > target ∧ st.cur ≠ [] then
      fixed_size_go target rest (lineNo + 1) (fs_flush_state st line lineNo)
    else
      fixed_size_go target rest (lineNo + 1) (fs_keep_state st line)

/-- `SmartChunker._fixed_size_chunking` (threshold `chunk_size_kb * 1024`
bytes of UTF-8). -/
def fixed_size_chunking (cfg : ChunkCfg) (text : List Char) : List ConfigChunk :=
  fixed_size_go (cfg.chunk_size_kb * 1024) (splitNl text) 1
    { chunks := [], cur := [], curSize := 0, curStart := 1 }

/-- Count of `'\n'` characters in a list (Python `s.count('\n')`). -/
def countNl (s : List Char) : Nat := s.countP (fun c => c = '\n')

/-- Stable insertion into a sorted list by a numeric key, placing the new
element after existing elements with a key less than or equal to its own
(the building block of the stable-sort model of Python `sorted`). -/
def insertAfterEq (key : ConfigChunk → Nat) : List ConfigChunk → ConfigChunk → List ConfigChunk
  | [], c => [c]
  | d :: ds, c =>
    if key d ≤ key c then d :: insertAfterEq key ds c else c :: d :: ds

/-- Python `sorted(chunks, key=...)` (stable). -/
def sortByKey (key : ConfigChunk → Nat) (l : List ConfigChunk) : List ConfigChunk :=
  l.foldl (insertAfterEq key) []

/-- Stable insertion for `(start, end)` block pairs, by start line. -/
def insertBlock : List (Nat × Nat) → (Nat × Nat) → List (Nat × Nat)
  | [], b => [b]
  | d :: ds, b =>
    if d.1 ≤ b.1 then d :: insertBlock ds b else b :: d :: ds

/-- `blocks.sort(key=lambda x: x[0])` (stable). -/
def sortBlocks (l : List (Nat × Nat)) : List (Nat × Nat) :=
  l.foldl insertBlock []

/-- `SmartChunker._merge_overlapping_blocks`: after sorting by start line,
fold blocks left to right, merging a block into the previous one when it
starts at or before the previous end plus one.  The accumulator is kept
reversed so "the last merged block" is its head. -/
def merge_overlapping_blocks (blocks : List (Nat × Nat)) : List (Nat × Nat) :=
  ((sortBlocks blocks).foldl
    (fun acc c =>
      match acc with
      | [] => [c]
      | (ls, le) :: tl => if c.1 ≤ le + 1 then (ls, max le c.2) :: tl else c :: (ls, le) :: tl)
    []).reverse

/-- `SmartChunker._identify_preserve_blocks`: run each compiled preserve
pattern over the joined text, convert character spans to 1-based line spans
by counting newlines, then merge overlaps. -/
def identify_preserve_blocks (cfg : ChunkCfg) (lines : List Line) : List (Nat × Nat) :=
  let text := joinNl lines
  let blocks := cfg.preserve_find.flatMap (fun find =>
    (find text).map (fun se =>
      (countNl (text.take se.1) + 1, countNl (text.take se.2) + 1)))
  merge_overlapping_blocks blocks

/-- Loop state of `SmartChunker._smart_chunking`. -/
structure SmState where
  chunks : List ConfigChunk
  cur : List Line
  curStart : Nat
  feats : List (List Char)

/-- Union of a feature set (insertion-ordered model of the Python `set`)
with the features of one line (`current_features.update(...)`). -/
def featUpdate (feats : List (List Char)) (line : Line) : List (List Char) :=
  feats ++ (extract_features line).filter (fun f => ¬ f ∈ feats)

/-- Loop body of `SmartChunker._smart_chunking` over the remaining lines with
their 1-based numbers.

Note: the Python source assigns `line_no = block_end` inside the loop with a
comment saying it skips the lines already consumed for the preserve block,
but assigning to a `for` loop variable does not affect the iterator, so the
assignment is dead code: the loop still visits every line number, re-entering
the preserve-block branch once per line of the block.  The embedding mirrors
that actual behaviour. -/
def smart_go (cfg : ChunkCfg) (lines : List Line) (blocks : List (Nat × Nat)) :
    List Line → Nat → SmState → List ConfigChunk
  | [], _, st =>
    if st.cur = [] then st.chunks
    else st.chunks ++ [create_chunk st.chunks.length st.curStart lines.length st.cur st.feats]
  | line :: rest, lineNo, st =>
    match blocks.find? (fun b => b.1 ≤ lineNo ∧ lineNo ≤ b.2) with
    | some (bs, be) =>
      -- inside a preserve block: flush if the whole block would overflow,
      -- then append the entire block
      let st :=
        if st.cur ≠ [] ∧ st.cur.length + (be - bs + 1) > cfg.chunk_size_lines then
          { chunks := st.chunks ++
              [create_chunk st.chunks.length st.curStart (lineNo - 1) st.cur st.feats],
            cur := [], curStart := lineNo, feats := [] }
        else st
      let st := (List.range' (bs - 1) (be - (bs - 1))).foldl
        (fun st i =>
          if h : i < lines.length then
            { st with cur := st.cur ++ [lines.get ⟨i, h⟩],
                      feats := featUpdate st.feats (lines.get ⟨i, h⟩) }
          else st)
        st
      smart_go cfg lines blocks rest (lineNo + 1) st
    | none =>
      let st := { st with cur := st.cur ++ [line], feats := featUpdate st.feats line }
      let should_split :=
        st.cur.length ≥ cfg.chunk_size_lines ∨
        cfg.section_markers.any (fun m =>
          containsSub m line ∧ st.cur.length > cfg.chunk_size_lines / 2)
      let st :=
        if should_split then
          let flushed := st.chunks ++
            [create_chunk st.chunks.length st.curStart lineNo st.cur st.feats]
          let newCur := st.cur.drop (st.cur.length - cfg.overlap_lines)
          { chunks := flushed, cur := newCur,
            curStart := lineNo - newCur.length + 1,
            feats := newCur.foldl featUpdate [] }
        else st
      smart_go cfg lines blocks rest (lineNo + 1) st

/-- `SmartChunker._smart_chunking`. -/
def smart_chunking (cfg : ChunkCfg) (text : List Char) : List ConfigChunk :=
  let lines := splitNl text
  let blocks := identify_preserve_blocks cfg lines
  smart_go cfg lines blocks lines 1 { chunks := [], cur := [], curStart := 1, feats := [] }

/-- `SmartChunker.chunk_text`: strategy dispatch (an unknown strategy falls
back to smart chunking; disabled chunking returns the whole text as one
chunk). -/
def chunk_text (cfg : ChunkCfg) (text : List Char) :
    Except (List Char) (List ConfigChunk) :=
  if ¬ cfg.enabled then
    .ok [{ chunk_id := 0, start_line := 1, end_line := (splitNl text).length,
           content := text, features := [] }]
  else if cfg.strategy = "smart".data then .ok (smart_chunking cfg text)
  else if cfg.strategy = "fixed_lines".data then fixed_lines_chunking cfg text
  else if cfg.strategy = "fixed_size".data then .ok (fixed_size_chunking cfg text)
  else .ok (smart_chunking cfg text)

/-- Python list slice `l[k:]` for a possibly negative `int` index. -/
def pySliceFrom (k : Int) (l : List (List Char)) : List (List Char) :=
  if 0 ≤ k then l.drop k.toNat
  else l.drop (l.length - (-k).toNat)

/-- One iteration of the `merge_chunks` loop: append the chunk's lines,
dropping the leading overlap when the chunk's declared `overlap_start` is
truthy (non-`None` and non-zero) and falls inside the already-emitted range
(`last_end_line`, the second state component). -/
def merge_step (acc : List (List Char) × Nat) (chunk : ConfigChunk) :
    List (List Char) × Nat :=
  let lines := splitNl chunk.content
  let lines :=
    match chunk.overlap_start with
    | some v =>
      if v ≠ 0 ∧ v ≤ acc.2 then
        pySliceFrom ((acc.2 : Int) - (chunk.start_line : Int) + 1) lines
      else lines
    | none => lines
  (acc.1 ++ lines, chunk.end_line)

/-- `SmartChunker.merge_chunks`: sort by `chunk_id`, then concatenate the
chunks' lines, de-duplicating declared overlaps. -/
def merge_chunks (chunks : List ConfigChunk) : List Char :=
  joinNl (((sortByKey (fun c => c.chunk_id) chunks).foldl merge_step ([], 0)).1)

/-! ## Desensitizer (`src/desensitizer.py`, class `ConfigDesensitizer`)

Each category pass is a Python `regex.sub(replace_fn, text)`.  `re.sub`
finds the leftmost non-overlapping matches of the *input* text from left to
right and replaces each with the value returned by the replacement closure.
A compiled pattern is modelled as a match-at-position function
`Option Char → List Char → Option Nat` receiving the previous character
(needed for word-boundary `\b` semantics) and the remaining text, and
returning the match length (at least 1) when the pattern matches there. -/

/-- One segment of the `re.sub` scan: an unmatched character or a match. -/
inductive Seg where
  | chr (c : Char)
  | mtch (v : List Char)
deriving DecidableEq

/-- Matcher type: previous character (none at the start of the text) and
remaining text to match length. -/
abbrev Matcher : Type := Option Char → List Char → Option Nat

/-- The `re.sub` scan: at each position try the pattern; on a match consume
it, otherwise move one character.  Structural recursion on a fuel argument
(one unit per emitted segment; `fuel = length` always suffices because every
step consumes at least one character). -/
def scanGo (m : Matcher) : Nat → Option Char → List Char → List Seg
  | 0, _, rest => rest.map Seg.chr
  | _ + 1, _, [] => []
  | fuel + 1, prev, c :: rest =>
    match m prev (c :: rest) with
    | some n =>
      let matched := (c :: rest).take n
      let prevNext := match matched.getLast? with
        | some d => some d
        | none => some c
      Seg.mtch matched :: scanGo m fuel prevNext ((c :: rest).drop n)
    | none => Seg.chr c :: scanGo m fuel (some c) rest

/-- Scan a whole text for the matches of one pattern. -/
def scanSegs (m : Matcher) (t : List Char) : List Seg :=
  scanGo m t.length none t

/-- The matched substrings of a scan, in text order. -/
def segMatches (segs : List Seg) : List (List Char) :=
  segs.filterMap (fun s => match s with | .mtch v => some v | .chr _ => none)

/-- Reassemble a scan, rendering every match through `g`. -/
def segRender (g : List Char → List Char) : List Seg → List Char
  | [] => []
  | .chr c :: rest => c :: segRender g rest
  | .mtch v :: rest => g v ++ segRender g rest

/-- Insertion-ordered association list: the model of a Python `dict`. -/
abbrev PyDict : Type := List (List Char × List Char)

/-- First-match association lookup (`dict.__getitem__` / `in`). -/
def alookup {β : Type} (m : List (List Char × β)) (k : List Char) : Option β :=
  match m with
  | [] => none
  | (k', v) :: rest => if k' = k then some v else alookup rest k

/-- `dict[k] = v`: replace in place if present, else append. -/
def dictSet {β : Type} (m : List (List Char × β)) (k : List Char) (v : β) :
    List (List Char × β) :=
  match m with
  | [] => [(k, v)]
  | (k', v') :: rest => if k' = k then (k', v) :: rest else (k', v') :: dictSet rest k v

/-- The body of the memoising replacement closures
(`replace_ip` / `replace_phone` / `replace_id` / `replace_url`):
`if v not in mapping: mapping[v] = f(v); return mapping[v]`. -/
def applyMemo (f : List Char → List Char) : List Seg → PyDict → List Char × PyDict
  | [], m => ([], m)
  | .chr c :: rest, m =>
    let r := applyMemo f rest m
    (c :: r.1, r.2)
  | .mtch v :: rest, m =>
    match alookup m v with
    | some w =>
      let r := applyMemo f rest m
      (w ++ r.1, r.2)
    | none =>
      let w := f v
      let r := applyMemo f rest (m ++ [(v, w)])
      (w ++ r.1, r.2)

/-- `regex.sub(replace_fn, text)` with a memoising replacement closure over a
fresh local mapping, returning the new text and the mapping. -/
def memoSub (mt : Matcher) (f : List Char → List Char) (t : List Char) :
    List Char × PyDict :=
  applyMemo f (scanSegs mt t) []

/-- Regex word character (`\w`), ASCII approximation. -/
def isWordChar (c : Char) : Bool := c.isAlphanum || c = '_'

/-- Is there a word boundary (`\b`) between `prev` and a first matched
character that is a word character? -/
def boundaryBefore (prev : Option Char) : Bool :=
  match prev with
  | none => true
  | some c => ¬ isWordChar c

/-- Length of the maximal leading run of decimal digits. -/
def digitRun (s : List Char) : Nat :=
  (s.takeWhile Char.isDigit).length

/-- Is there a word boundary after a match ending in a word character, i.e.
is the next character absent or a non-word character? -/
def boundaryAfter (s : List Char) : Bool :=
  match s with
  | [] => true
  | c :: _ => ¬ isWordChar c

/-- Generic single-character split (Python `s.split(sep)`), used for
`ip.split('.')` and `netloc.split('.')`. -/
def splitOnChar (sep : Char) : List Char → List (List Char)
  | [] => [[]]
  | c :: rest =>
    match splitOnChar sep rest with
    | [] => [[]]
    | l :: ls => if c = sep then [] :: l :: ls else (c :: l) :: ls

/-! ### Concrete category patterns

`config.yaml` is not part of the source tree, so the concrete patterns are
modelled from the spec (§4.2) and from the defaults the repository itself
uses in `api/simple.py` and in its tests:
IPv4 `\b(?:[0-9]{1,3}\.){3}[0-9]{1,3}\b` replaced by `xxx.xxx.xxx.xxx`,
Chinese mobile numbers `\b1[3-9][0-9]{9}\b`, IMSI `\b460[0-9]{12}\b` with
replacement `IMSI_MASKED`, IMEI `\b86[0-9]{13}\b` with `IMEI_MASKED`,
URLs `https?://[^\s]+`.  Each regex is embedded as its (deterministic)
match-at-position function. -/

/-- One `[0-9]{1,3}` octet followed by a literal `.`; returns the consumed
length and the remaining text.  (With backtracking, `\d{1,3}\.` matches at a
position iff the maximal leading digit run has length 1–3 and is followed by
`.`.) -/
def octetDot (s : List Char) : Option (Nat × List Char) :=
  let r := digitRun s
  if 1 ≤ r ∧ r ≤ 3 then
    match s.drop r with
    | '.' :: rest2 => some (r + 1, rest2)
    | _ => none
  else none

/-- `\b(?:[0-9]{1,3}\.){3}[0-9]{1,3}\b` at one position. -/
def ipMatchAt : Matcher := fun prev s =>
  if boundaryBefore prev then
    match octetDot s with
    | some (n1, s1) =>
      match octetDot s1 with
      | some (n2, s2) =>
        match octetDot s2 with
        | some (n3, s3) =>
          let r4 := digitRun s3
          if 1 ≤ r4 ∧ r4 ≤ 3 ∧ boundaryAfter (s3.drop r4) then
            some (n1 + n2 + n3 + r4)
          else none
        | none => none
      | none => none
    | none => none
  else none

/-- `\b1[3-9][0-9]{9}\b` at one position. -/
def phoneMatchAt : Matcher := fun prev s =>
  if boundaryBefore prev then
    match s with
    | '1' :: d :: rest =>
      if ('3' ≤ d ∧ d ≤ '9') ∧ (rest.take 9).all Char.isDigit ∧
          9 ≤ rest.length ∧ boundaryAfter (rest.drop 9) then
        some 11
      else none
    | _ => none
  else none

/-- `\b<pre>[0-9]{k}\b` at one position (numeric identifier patterns). -/
def numIdMatchAt (pre : List Char) (k : Nat) : Matcher := fun prev s =>
  if boundaryBefore prev ∧ startsWithL pre s ∧
      ((s.drop pre.length).take k).all Char.isDigit ∧
      k ≤ (s.drop pre.length).length ∧
      boundaryAfter (s.drop (pre.length + k)) then
    some (pre.length + k)
  else none

/-- IMSI pattern `\b460[0-9]{12}\b`. -/
def imsiMatchAt : Matcher := numIdMatchAt "460".data 12

/-- IMEI pattern `\b86[0-9]{13}\b`. -/
def imeiMatchAt : Matcher := numIdMatchAt "86".data 13

/-- `https?://[^\s]+` at one position. -/
def urlMatchAt : Matcher := fun _ s =>
  let tailLen (schemeLen : Nat) : Option Nat :=
    let r := ((s.drop schemeLen).takeWhile (fun c => ¬ isPyWs c)).length
    if 1 ≤ r then some (schemeLen + r) else none
  if startsWithL "https://".data s then tailLen 8
  else if startsWithL "http://".data s then tailLen 7
  else none

/-! ### Category passes -/

/-- Compiled pattern entry of `self.patterns` (`_compile_patterns`). -/
structure PatternCfg where
  matchAt : Matcher
  replacement : List Char

/-- The `desensitization:` configuration (from `config.yaml`, absent from the
source tree; flags per `desensitizer.py`'s accesses).  `idHash` models
`hashlib.md5(v.encode()).hexdigest()[:8]` as an abstract deterministic digest
function (spec §4.2: a deterministic short digest of the original value). -/
structure DesensConfig where
  enabled : Bool
  ip : Option (PatternCfg × Bool)      -- pattern and `keep_subnet`
  phone : Option PatternCfg
  imsi : Option PatternCfg
  imei : Option PatternCfg
  pwKeywords : List (List Char)
  pwReplacement : List Char
  custKeywords : List (List Char)
  url : Option (PatternCfg × Bool)     -- pattern and `keep_domain`
  idHash : List Char → List Char

/-- Mask of one IP value (`replace_ip` body). -/
def ipMaskFn (keep_subnet : Bool) (replacement : List Char) (ip : List Char) : List Char :=
  if keep_subnet then
    let parts := splitOnChar '.' ip
    (parts.getD 0 []) ++ '.' :: (parts.getD 1 []) ++ ".xxx.xxx".data
  else replacement

/-- Mask of one phone value: first 3 and last 2 digits kept
(`f"{phone[:3]}****{phone[-2:]}"`). -/
def phoneMaskFn (phone : List Char) : List Char :=
  phone.take 3 ++ "****".data ++ phone.drop (phone.length - 2)

/-- Mask of one IMSI/IMEI value (`replace_id` body). -/
def idMaskFn (replacement : List Char) (idHash : List Char → List Char)
    (identifier : List Char) : List Char :=
  replacement ++ '_' :: idHash identifier

/-- Mask of one URL value (`replace_url` body, including the
`urllib.parse`-based `keep_domain` branch for `http(s)` URLs). -/
def urlMaskFn (keep_domain : Bool) (replacement : List Char) (url : List Char) : List Char :=
  if keep_domain then
    let scheme := if startsWithL "https://".data url then "https".data else "http".data
    let netloc := (url.drop (scheme.length + 3)).takeWhile
      (fun c => ¬ (c = '/' ∨ c = '?' ∨ c = '#'))
    let domain_parts := splitOnChar '.' netloc
    let masked_domain :=
      if 1 < domain_parts.length then "masked.".data ++ domain_parts.getLastD []
      else "masked.domain".data
    scheme ++ "://".data ++ masked_domain ++ "/path".data
  else replacement

/-- `_desensitize_ip_addresses`. -/
def ip_pass (cfg : DesensConfig) (t : List Char) : List Char × PyDict :=
  match cfg.ip with
  | none => (t, [])
  | some (p, keep) => memoSub p.matchAt (ipMaskFn keep p.replacement) t

/-- `_desensitize_phone_numbers`. -/
def phone_pass (cfg : DesensConfig) (t : List Char) : List Char × PyDict :=
  match cfg.phone with
  | none => (t, [])
  | some p => memoSub p.matchAt phoneMaskFn t

/-- `_desensitize_identifiers` for one identifier category. -/
def id_pass (pat : Option PatternCfg) (idHash : List Char → List Char)
    (t : List Char) : List Char × PyDict :=
  match pat with
  | none => (t, [])
  | some p => memoSub p.matchAt (idMaskFn p.replacement idHash) t

/-- One `({kw})\s*[=:]\s*([^\s,;]+)` password pattern (IGNORECASE) at one
position. -/
def pwMatchAt (kw : List Char) : Matcher := fun _ s =>
  if lowerL (s.take kw.length) = lowerL kw ∧ kw ≠ [] then
    let rest1 := s.drop kw.length
    let w1 := (rest1.takeWhile isPyWs).length
    match rest1.drop w1 with
    | c :: rest2 =>
      if c = '=' ∨ c = ':' then
        let w2 := (rest2.takeWhile isPyWs).length
        let v := ((rest2.drop w2).takeWhile
          (fun c => ¬ (isPyWs c ∨ c = ',' ∨ c = ';'))).length
        if 1 ≤ v then some (kw.length + w1 + 1 + w2 + v) else none
      else none
    | [] => none
  else none

/-- Non-memoising replacement application that records
`mapping[full_match] = masked` for every occurrence (`replace_pwd` body). -/
def applyOverwrite (f : List Char → List Char) : List Seg → PyDict → List Char × PyDict
  | [], m => ([], m)
  | .chr c :: rest, m =>
    let r := applyOverwrite f rest m
    (c :: r.1, r.2)
  | .mtch v :: rest, m =>
    let w := f v
    let r := applyOverwrite f rest (dictSet m v w)
    (w ++ r.1, r.2)

/-- `_desensitize_passwords`: one substitution per configured keyword, run
sequentially over the evolving text with a shared mapping. -/
def passwords_pass (cfg : DesensConfig) (t : List Char) : List Char × PyDict :=
  cfg.pwKeywords.foldl
    (fun acc kw =>
      applyOverwrite (fun full => full.take kw.length ++ '=' :: cfg.pwReplacement)
        (scanSegs (pwMatchAt kw) acc.1) acc.2)
    (t, [])

/-- Python `s.replace(old, new)` (all non-overlapping occurrences, left to
right), for a non-empty `old`; fuel-structured recursion. -/
def replaceAllGo (pat rep : List Char) : Nat → List Char → List Char
  | 0, s => s
  | _ + 1, [] => []
  | fuel + 1, c :: cs =>
    if startsWithL pat (c :: cs) then
      rep ++ replaceAllGo pat rep fuel ((c :: cs).drop pat.length)
    else c :: replaceAllGo pat rep fuel cs

/-- Python `s.replace(old, new)`.  (The `old = ''` case never arises: the
customer keyword lists contain non-empty names.) -/
def replaceAll (pat rep s : List Char) : List Char :=
  if pat = [] then s else replaceAllGo pat rep s.length s

/-- Zero-padded 3-digit decimal rendering (`f"{idx+1:03d}"`). -/
def pad3 (n : Nat) : List Char :=
  let ds := Nat.toDigits 10 n
  List.replicate (3 - ds.length) '0' ++ ds

/-- `_desensitize_customer_names` over the configured (or default built-in)
keyword list. -/
def customers_pass (cfg : DesensConfig) (t : List Char) : List Char × PyDict :=
  cfg.custKeywords.enum.foldl
    (fun acc p =>
      if containsSub p.2 acc.1 then
        let replacement := "CUSTOMER_".data ++ pad3 (p.1 + 1)
        (replaceAll p.2 replacement acc.1, dictSet acc.2 p.2 replacement)
      else acc)
    (t, [])

/-- `_desensitize_urls`. -/
def urls_pass (cfg : DesensConfig) (t : List Char) : List Char × PyDict :=
  match cfg.url with
  | none => (t, [])
  | some (p, keep) => memoSub p.matchAt (urlMaskFn keep p.replacement) t

/-- The per-call `local_mapping` of `desensitize_text` (category → original →
masked). -/
structure DesensMapping where
  ip_addresses : PyDict
  phone_numbers : PyDict
  imsi : PyDict
  imei : PyDict
  passwords : PyDict
  customers : PyDict
  urls : PyDict
deriving DecidableEq

/-- `ConfigDesensitizer.desensitize_text`: the six ordered category passes
over the evolving text.  (The cumulative instance statistics updated by
`_update_statistics` are not modelled; no claim refers to them.  When
desensitization is disabled the Python code returns the literal empty dict,
modelled as the all-empty mapping.) -/
def desensitize_text (cfg : DesensConfig) (t : List Char) :
    List Char × DesensMapping :=
  if ¬ cfg.enabled then
    (t, ⟨[], [], [], [], [], [], []⟩)
  else
    let r1 := ip_pass cfg t
    let r2 := phone_pass cfg r1.1
    let r3 := id_pass cfg.imsi cfg.idHash r2.1
    let r4 := id_pass cfg.imei cfg.idHash r3.1
    let r5 := passwords_pass cfg r4.1
    let r6 := customers_pass cfg r5.1
    let r7 := urls_pass cfg r6.1
    (r7.1, ⟨r1.2, r2.2, r3.2, r4.2, r5.2, r6.2, r7.2⟩)

/-- Abstract model of `hashlib.md5(v.encode()).hexdigest()[:8]`: a fixed
deterministic 8-hex-character digest (the individual digest values are not
relevant to any claim). -/
def md5Hex8Model : List Char → List Char := fun _ => "0a1b2c3d".data

/-- The default customer keyword list built into
`_desensitize_customer_names`. -/
def default_customer_keywords : List (List Char) :=
  ["China Mobile".data, "China Unicom".data, "China Telecom".data,
   "Vodafone".data, "Orange".data, "T-Mobile".data, "AT&T".data,
   "Verizon".data, "中国移动".data, "中国联通".data, "中国电信".data]

/-- The default desensitization configuration, modelled from the spec and
from the repository's own defaults (see the section header above). -/
def cfgDefault : DesensConfig where
  enabled := true
  ip := some ({ matchAt := ipMatchAt, replacement := "xxx.xxx.xxx.xxx".data }, false)
  phone := some { matchAt := phoneMatchAt, replacement := "MASKED".data }
  imsi := some { matchAt := imsiMatchAt, replacement := "IMSI_MASKED".data }
  imei := some { matchAt := imeiMatchAt, replacement := "IMEI_MASKED".data }
  pwKeywords := ["password".data, "secret".data, "key".data]
  pwReplacement := "********".data
  custKeywords := default_customer_keywords
  url := some ({ matchAt := urlMatchAt, replacement := "http://masked.url".data }, false)
  idHash := md5Hex8Model

/-! ## Metadata extractor (`src/metadata_extractor.py`): statistics and
complexity assessment -/

/-- Round half to even on `ℚ` (the tie-breaking CPython's float `round`
uses).  `q` is exactly representable here: the only use is
`round(size_bytes / 2**20, 2)`, whose argument is a dyadic rational below
`2^53`. -/
def roundHalfEven (q : ℚ) : ℤ :=
  let n := ⌊q⌋
  let r := q - (n : ℚ)
  if r < 1/2 then n
  else if (1 : ℚ)/2 < r then n + 1
  else if Even n then n else n + 1

/-- `round(size_bytes / (1024 * 1024), 2)` as an exact rational. -/
def sizeMB (bytes : Nat) : ℚ :=
  (roundHalfEven ((bytes : ℚ) * 100 / 1048576) : ℚ) / 100

/-- Python `s.endswith(c)` for a single character. -/
def endsWithChar (c : Char) (s : List Char) : Bool :=
  s.getLast? = some c

/-- Is a line a config item for `_extract_statistics`: stripped, non-empty,
not a `#` comment, containing `=` or `:`. -/
def isConfigItemLine (line : Line) : Bool :=
  let l := pyStrip line
  ¬ l = [] && ¬ startsWithL "#".data l && ('=' ∈ l || ':' ∈ l)

/-- Is a line a `[section]` line for `_extract_statistics`. -/
def isSectionLine (line : Line) : Bool :=
  let l := pyStrip line
  ¬ l = [] && ¬ startsWithL "#".data l && startsWithL "[".data l && endsWithChar ']' l

/-- The `statistics` record of `MetadataExtractor._extract_statistics`.
Character classes use the ASCII reading of Python's `isalpha`/`isdigit`/
`isspace`. -/
structure Statistics where
  total_lines : Nat
  non_empty_lines : Nat
  comment_lines : Nat
  size_bytes : Nat
  size_mb : ℚ
  config_items : Nat
  sections : Nat
  alphabetic : Nat
  numeric : Nat
  whitespace : Nat
  special : Nat
deriving DecidableEq

/-- `MetadataExtractor._extract_statistics`. -/
def extract_statistics (content : List Char) : Statistics :=
  let lines := splitNl content
  { total_lines := lines.length
    non_empty_lines := lines.countP (fun l => ¬ pyStrip l = [])
    comment_lines := lines.countP (fun l => startsWithL "#".data (pyStrip l))
    size_bytes := utf8Len content
    size_mb := sizeMB (utf8Len content)
    config_items := lines.countP (fun l => isConfigItemLine l)
    sections := lines.countP (fun l => isSectionLine l)
    alphabetic := content.countP (fun c => c.isAlpha)
    numeric := content.countP (fun c => c.isDigit)
    whitespace := content.countP (fun c => isPyWs c)
    special := content.countP (fun c => ¬ c.isAlphanum ∧ ¬ isPyWs c) }

/-- Python `s.count(sub)` (non-overlapping, left to right); fuel-structured
recursion, `fuel = length` suffices. -/
def countSubGo (w : List Char) : Nat → List Char → Nat
  | 0, _ => 0
  | _ + 1, [] => 0
  | fuel + 1, s@(_ :: cs) =>
    if startsWithL w s then 1 + countSubGo w fuel (s.drop w.length)
    else countSubGo w fuel cs

/-- Python `s.count(sub)` (`s.count('') = len(s) + 1`). -/
def countSub (w s : List Char) : Nat :=
  if w = [] then s.length + 1 else countSubGo w s.length s

/-- Maximum leading-whitespace depth over the lines of a text
(`len(line) - len(line.lstrip())`, folded with `max`). -/
def maxIndent (content : List Char) : Nat :=
  (splitNl content).foldl (fun mx l => max mx (l.length - (pyLStrip l).length)) 0

/-- The `complexity` record of `MetadataExtractor._assess_complexity`. -/
structure Complexity where
  level : List Char
  score : Nat
  factors : List (List Char)
deriving DecidableEq

/-- `MetadataExtractor._assess_complexity` (additive threshold score over
size, config items, network-function mentions — gated, as in the source, on
the literal substring `5gc_info` occurring in the content — and nesting
depth). -/
def assess_complexity (content : List Char) (stats : Statistics) : Complexity :=
  let sizeScore : Nat :=
    if stats.size_mb > 10 then 30 else if stats.size_mb > 1 then 10 else 0
  let sizeFactors : List (List Char) :=
    if stats.size_mb > 10 then ["large_file_size".data]
    else if stats.size_mb > 1 then ["medium_file_size".data] else []
  let itemScore : Nat :=
    if stats.config_items > 1000 then 30 else if stats.config_items > 100 then 10 else 0
  let itemFactors : List (List Char) :=
    if stats.config_items > 1000 then ["many_config_items".data]
    else if stats.config_items > 100 then ["moderate_config_items".data] else []
  let nf_count := countSub "AMF".data content + countSub "SMF".data content +
    countSub "UPF".data content
  let nfScore : Nat :=
    if containsSub "5gc_info".data content then
      if nf_count > 10 then 20 else 0
    else 0
  let nfFactors : List (List Char) :=
    if containsSub "5gc_info".data content then
      if nf_count > 10 then ["multiple_network_functions".data] else []
    else []
  let indentScore : Nat := if maxIndent content > 20 then 15 else 0
  let indentFactors : List (List Char) :=
    if maxIndent content > 20 then ["deep_nesting".data] else []
  let score := sizeScore + itemScore + nfScore + indentScore
  { level :=
      if score ≥ 50 then "high".data
      else if score ≥ 20 then "medium".data
      else "low".data
    score := score
    factors := sizeFactors ++ itemFactors ++ nfFactors ++ indentFactors }

/-- The numeric complexity score of a text, as `extract` computes it
(statistics extracted from the same content). -/
def complexity_score (content : List Char) : Nat :=
  (assess_complexity content (extract_statistics content)).score

/-! ## Format converter (`src/format_converter.py`, class `FormatConverter`) -/

/-- The `ConfigFormat` enumeration. -/
inductive ConfigFormat where
  | xml | json | yaml | text | conf | ini | unknown
deriving DecidableEq

/-- The `.value` strings of the enumeration. -/
def format_value : ConfigFormat → List Char
  | .xml => "xml".data
  | .json => "json".data
  | .yaml => "yaml".data
  | .text => "text".data
  | .conf => "conf".data
  | .ini => "ini".data
  | .unknown => "unknown".data

/-- Last path component (`pathlib.PurePath.name`, POSIX separators). -/
def lastComponent (path : List Char) : List Char :=
  (splitOnChar '/' path).getLastD []

/-- Index of the last `.` in a name (`name.rfind('.')`). -/
def rfindDot (name : List Char) : Option Nat :=
  ((name.enum.filter (fun p => p.2 = '.')).getLast?).map Prod.fst

/-- `pathlib.PurePath.suffix`: the final `.`-suffix of the last component,
empty when the dot is leading or trailing. -/
def pathSuffix (path : List Char) : List Char :=
  let name := lastComponent path
  match rfindDot name with
  | some i => if 0 < i ∧ i < name.length - 1 then name.drop i else []
  | none => []

/-- `file_path.suffix.lower().lstrip('.')`. -/
def pathExtension (path : List Char) : List Char :=
  (lowerL (pathSuffix path)).dropWhile (fun c => c = '.')

/-- `FormatConverter.detect_format`.  The content sniff (the `try` block
reading the first 1 KB with the default encoding) is modelled by the
`sniff` argument: `none` when the read raises (missing file, decode error),
`some content` with the decoded prefix otherwise.  The function is total:
detection never raises. -/
def detect_format (path : List Char) (sniff : Option (List Char)) : ConfigFormat :=
  let ext := pathExtension path
  if ext = "xml".data then .xml
  else if ext = "json".data then .json
  else if ext = "yaml".data ∨ ext = "yml".data then .yaml
  else if ext = "ini".data ∨ ext = "cfg".data then .ini
  else if ext = "conf".data ∨ ext = "config".data then .conf
  else if ext = "txt".data ∨ ext = "text".data ∨ ext = "log".data then .text
  else
    match sniff with
    | none => .unknown
    | some content =>
      match pyStrip content with
      | c :: _ =>
        if c = '<' then .xml
        else if c = '{' ∨ c = '[' then .json
        else if ':' ∈ content ∧ '-' ∈ content then .yaml
        else .text
      | [] =>
        if ':' ∈ content ∧ '-' ∈ content then .yaml
        else .text

/-! ### Parsed configuration values and the text/conf mini grammar -/

mutual
/-- A parsed Python value (the payload of `ConfigStructure.content` and of
the unified envelope).  Nested containers use the spine types `PyEntries` /
`PyItems` so that all recursions stay structural. -/
inductive PyVal where
  | str (s : List Char)
  | vint (n : Int)
  | vbool (b : Bool)
  | vnone
  | dict (entries : PyEntries)
  | list (items : PyItems)

/-- Insertion-ordered `dict` entries of a `PyVal.dict`. -/
inductive PyEntries where
  | nil
  | cons (key : List Char) (val : PyVal) (rest : PyEntries)

/-- Items of a `PyVal.list`. -/
inductive PyItems where
  | nil
  | cons (item : PyVal) (rest : PyItems)
end

/-- Decimal rendering of an `Int` (Python `str(int)`). -/
def intStr (n : Int) : List Char :=
  if n < 0 then '-' :: Nat.toDigits 10 (-n).toNat else Nat.toDigits 10 n.toNat

mutual
/-- Python `str(value)`.  Scalars render exactly; containers use a
repr-style rendering (containers never reach the scalar branches of
`dict_to_text` in the embedded pipeline, whose dict/list branches intercept
them first). -/
def pyStr : PyVal → List Char
  | .str s => s
  | .vint n => intStr n
  | .vbool b => if b then "True".data else "False".data
  | .vnone => "None".data
  | .dict e => '\x7b' :: pyStrEntries e ++ ['\x7d']
  | .list i => '[' :: pyStrItems i ++ [']']

def pyStrEntries : PyEntries → List Char
  | .nil => []
  | .cons k v .nil => k ++ ": ".data ++ pyStr v
  | .cons k v rest => k ++ ": ".data ++ pyStr v ++ ", ".data ++ pyStrEntries rest

def pyStrItems : PyItems → List Char
  | .nil => []
  | .cons v .nil => pyStr v
  | .cons v rest => pyStr v ++ ", ".data ++ pyStrItems rest
end

mutual
/-- `FormatConverter._normalize_config`: recurse through containers,
stringify scalars (`str(config) if config is not None else ""`). -/
def normalize_config : PyVal → PyVal
  | .dict e => .dict (normalizeEntries e)
  | .list i => .list (normalizeItems i)
  | .vnone => .str []
  | v => .str (pyStr v)

def normalizeEntries : PyEntries → PyEntries
  | .nil => .nil
  | .cons k v rest => .cons k (normalize_config v) (normalizeEntries rest)

def normalizeItems : PyItems → PyItems
  | .nil => .nil
  | .cons v rest => .cons (normalize_config v) (normalizeItems rest)
end

/-- `"  " * indent`. -/
def indentStr (indent : Nat) : List Char := List.replicate (2 * indent) ' '

/-- `','.join(map(str, value))` over the items of a list value. -/
def joinCommaItems : PyItems → List Char
  | .nil => []
  | .cons v .nil => pyStr v
  | .cons v rest => pyStr v ++ ',' :: joinCommaItems rest

mutual
/-- The recursive `dict_to_text` helper of
`ConfigPreProcessor._unified_to_text`. -/
def dict_to_text : PyVal → Nat → List Char
  | .dict e, indent => joinNl (dttEntries e indent)
  | d, indent => indentStr indent ++ pyStr d

/-- One rendered element per `lines.append(...)` of `dict_to_text`. -/
def dttEntries : PyEntries → Nat → List (List Char)
  | .nil, _ => []
  | .cons k v rest, indent =>
    match v with
    | .dict e =>
      (indentStr indent ++ '[' :: k ++ [']']) ::
        dict_to_text (.dict e) (indent + 1) :: dttEntries rest indent
    | .list i =>
      (indentStr indent ++ k ++ " = ".data ++ joinCommaItems i) :: dttEntries rest indent
    | v =>
      (indentStr indent ++ k ++ " = ".data ++ pyStr v) :: dttEntries rest indent
end

/-- The unified envelope of `FormatConverter.convert_to_unified`.  Only the
fields read by later pipeline stages are modelled (`metadata.original_format`
and `config`); the derived `hierarchy` index and the best-effort
`line_mapping` are write-only in the pipeline and omitted. -/
structure Unified where
  original_format : List Char
  config : PyVal

/-- `FormatConverter.convert_to_unified` (on the modelled fields). -/
def convert_to_unified (fmt : ConfigFormat) (content : PyVal) : Unified :=
  { original_format := format_value fmt, config := normalize_config content }

/-- `ConfigPreProcessor._unified_to_text` (`dict_to_text(unified['config'])`). -/
def unified_to_text (u : Unified) : List Char :=
  dict_to_text u.config 0

/-- `re.match(r'\[([^\]]+)\]', line)`: a `[section]` header (as a prefix of
the line), returning the bracketed name. -/
def sectionHeaderMatch (l : Line) : Option Line :=
  match l with
  | '[' :: rest =>
    let name := rest.takeWhile (fun c => ¬ c = ']')
    if ¬ name = [] ∧ (rest.drop name.length).head? = some ']' then some name else none
  | _ => none

/-- `^([^=]+)=(.+)$`: split at the first `=`, both sides non-empty. -/
def kvMatchEq (l : Line) : Option (Line × Line) :=
  let k := l.takeWhile (fun c => ¬ c = '=')
  if ¬ k = [] ∧ k.length < l.length then
    let v := l.drop (k.length + 1)
    if ¬ v = [] then some (pyStrip k, pyStrip v) else none
  else none

/-- `^([^:]+):(.+)$`. -/
def kvMatchColon (l : Line) : Option (Line × Line) :=
  let k := l.takeWhile (fun c => ¬ c = ':')
  if ¬ k = [] ∧ k.length < l.length then
    let v := l.drop (k.length + 1)
    if ¬ v = [] then some (pyStrip k, pyStrip v) else none
  else none

/-- `^(\S+)\s+(.+)$`.  (The lines reaching this matcher are already
stripped, so the greedy `\s+`/`(.+)` backtracking corner for trailing
whitespace cannot arise.) -/
def kvMatchSpace (l : Line) : Option (Line × Line) :=
  let k := l.takeWhile (fun c => ¬ isPyWs c)
  if ¬ k = [] then
    let ws := (l.drop k.length).takeWhile isPyWs
    let v := l.drop (k.length + ws.length)
    if ¬ ws = [] ∧ ¬ v = [] then some (pyStrip k, pyStrip v) else none
  else none

/-- The three key/value patterns of `parse_text`, tried in order (first
match wins). -/
def kvMatch (l : Line) : Option (Line × Line) :=
  match kvMatchEq l with
  | some r => some r
  | none =>
    match kvMatchColon l with
    | some r => some r
    | none => kvMatchSpace l

/-- Loop of `FormatConverter.parse_text` over the lines: build the
section → key → value table (`line_mapping` is write-only and omitted). -/
def parse_text_go :
    List Line → List (Line × List (Line × Line)) × Line →
    List (Line × List (Line × Line))
  | [], st => st.1
  | line :: rest, (cfgAcc, curSec) =>
    let l := pyStrip line
    if l = [] ∨ startsWithL "#".data l ∨ startsWithL ";".data l then
      parse_text_go rest (cfgAcc, curSec)
    else
      match sectionHeaderMatch l with
      | some name =>
        let cfgAcc := if (alookup cfgAcc name).isSome then cfgAcc else cfgAcc ++ [(name, [])]
        parse_text_go rest (cfgAcc, name)
      | none =>
        match kvMatch l with
        | some kv =>
          let cfgAcc :=
            if (alookup cfgAcc curSec).isSome then cfgAcc else cfgAcc ++ [(curSec, [])]
          let inner := (alookup cfgAcc curSec).getD []
          parse_text_go rest (dictSet cfgAcc curSec (dictSet inner kv.1 kv.2), curSec)
        | none => parse_text_go rest (cfgAcc, curSec)

/-- `FormatConverter.parse_text`: the section table of the line-oriented
fallback grammar (initial section name `default`). -/
def parse_text_sections (content : List Char) : List (Line × List (Line × Line)) :=
  parse_text_go (splitNl content) ([], "default".data)

/-- Convert the parsed section table to a `PyVal` tree. -/
def innerToEntries : List (Line × Line) → PyEntries
  | [] => .nil
  | (k, v) :: rest => .cons k (.str v) (innerToEntries rest)

/-- Convert the parsed section table to the `ConfigStructure.content` value. -/
def sectionsToPyVal (secs : List (Line × List (Line × Line))) : PyVal :=
  .dict (go secs)
where
  go : List (Line × List (Line × Line)) → PyEntries
    | [] => .nil
    | (name, inner) :: rest => .cons name (.dict (innerToEntries inner)) (go rest)

/-- `FormatConverter.process_file` specialised to the embedded text/conf
grammar: detect the format from the path and the sniffed content, parse with
`parse_text`, wrap into the unified envelope.  The xml/json/yaml/ini
branches call external library parsers and are outside the embedding
(`none`); the claims about the orchestrator's data flow use text inputs. -/
def converter_process_file_text (path content : List Char) : Option Unified :=
  match detect_format path (some content) with
  | .text => some (convert_to_unified .text (sectionsToPyVal (parse_text_sections content)))
  | .conf => some (convert_to_unified .text (sectionsToPyVal (parse_text_sections content)))
  | _ => none

/-! ## Orchestrator (`src/preprocessor.py`, class `ConfigPreProcessor`) -/

/-- The text handed to `desensitize_text` by Step 3 of
`ConfigPreProcessor.process_file` (`preprocessor.py` lines 155–161): the
unified structure rendered back to text when format conversion ran, the raw
file content otherwise. -/
def desensitize_input (convert_format : Bool) (raw : List Char) (unified : Unified) :
    List Char :=
  if convert_format then unified_to_text unified else raw

/-- The Step 1 + Step 3 composition of `process_file` for a text-format
file processed with `convert_format=True`: what the Desensitizer receives. -/
def process_file_desens_input_text (path raw : List Char) : Option (List Char) :=
  (converter_process_file_text path raw).map (desensitize_input true raw)

/-- `ProcessingResult` (dataclass of `preprocessor.py`).  The extracted
`metadata`/`statistics` payloads and the wall-clock `processing_time` are
not referenced by any claim and are omitted. -/
structure ProcessingResult where
  success : Bool
  file_path : List Char
  original_format : List Char
  processed_files : List (List Char)
  errors : List (List Char)

/-- Outcome of the `try` body of `process_file` after the existence check
succeeds. -/
structure PipelineOutcome where
  original_format : List Char
  processed_files : List (List Char)

/-- `ConfigPreProcessor.process_file`, modelled at the level of its
error-handling skeleton: the `try` block first raises `FileNotFoundError`
when the path does not exist (with `errors` and `processed_files` still
empty), and the `except` handler turns any raised exception into a failed
`ProcessingResult` carrying the accumulated artifact list and the message.
The remainder of the body (steps 1–5, which is all filesystem I/O) is the
`pipeline` parameter: it returns the artifacts on success or the raised
message plus the artifacts accumulated so far.  The function is total: no
exception escapes to the caller. -/
def process_file_result (fsExists : List Char → Bool)
    (pipeline : List Char → Except (List Char × List (List Char)) PipelineOutcome)
    (path : List Char) : ProcessingResult :=
  if fsExists path then
    match pipeline path with
    | .ok r =>
      { success := true, file_path := path, original_format := r.original_format,
        processed_files := r.processed_files, errors := [] }
    | .error e =>
      { success := false, file_path := path, original_format := "unknown".data,
        processed_files := e.2, errors := [e.1] }
  else
    { success := false, file_path := path, original_format := "unknown".data,
      processed_files := [],
      errors := ["FileNotFoundError: 文件不存在: ".data ++ path] }

/-! ## Derived notions used by the verification statements -/

/-- The substrings of `t` matched by one pattern, in text order. -/
def passMatches (mt : Matcher) (t : List Char) : List (List Char) :=
  segMatches (scanSegs mt t)

/-- Canonical description of one memoising substitution pass: the output
replaces every occurrence of a matched value `v` by the single mask `f v`
(so repeated occurrences receive identical masks), and the local mapping
holds exactly one entry per distinct matched value, in first-seen order. -/
def MemoConsistent (mt : Matcher) (f : List Char → List Char) (t : List Char) : Prop :=
  memoSub mt f t =
    (segRender f (scanSegs mt t),
     (dedupFirst (passMatches mt t)).map (fun v => (v, f v)))

/-- Does the path carry one of the extensions of `detect_format`'s
extension table? -/
def recognized_extension (path : List Char) : Bool :=
  let e := pathExtension path
  e = "xml".data || e = "json".data || e = "yaml".data || e = "yml".data ||
  e = "ini".data || e = "cfg".data || e = "conf".data || e = "config".data ||
  e = "txt".data || e = "text".data || e = "log".data

/-! ### Concrete instances used by the per-claim counterexamples and
witnesses -/

/-- A fixed-lines configuration with window 10 and overlap 2. -/
def c2cfg : ChunkCfg :=
  { enabled := true, strategy := "fixed_lines".data, chunk_size_lines := 10,
    chunk_size_kb := 1024, overlap_lines := 2, section_markers := [],
    preserve_find := [] }

/-- A 17-line text. -/
def c2Text : List Char := joinNl (List.replicate 17 ['x'])

/-- A fixed-lines configuration (window 3, overlap 1) for the round-trip
witness. -/
def c3cfgL : ChunkCfg :=
  { enabled := true, strategy := "fixed_lines".data, chunk_size_lines := 3,
    chunk_size_kb := 1024, overlap_lines := 1, section_markers := [],
    preserve_find := [] }

/-- A fixed-size configuration (0 KB threshold: one line per chunk) for the
round-trip witness. -/
def c3cfgS : ChunkCfg :=
  { enabled := true, strategy := "fixed_size".data, chunk_size_lines := 5000,
    chunk_size_kb := 0, overlap_lines := 100, section_markers := [],
    preserve_find := [] }

/-- A smart-chunking configuration whose single preserve pattern matches the
character span `[0, 3)` (e.g. the regex `\Aa\nb` on the text below): the
block covers source lines 1–2. -/
def c4cfg : ChunkCfg :=
  { enabled := true, strategy := "smart".data, chunk_size_lines := 10,
    chunk_size_kb := 1024, overlap_lines := 2, section_markers := [],
    preserve_find := [fun _ => [(0, 3)]] }

/-- A fixed-lines configuration with the given window and overlap. -/
def c10cfg (w o : Nat) : ChunkCfg :=
  { enabled := true, strategy := "fixed_lines".data, chunk_size_lines := w,
    chunk_size_kb := 1024, overlap_lines := o, section_markers := [],
    preserve_find := [] }

/-- The text of the C1 counterexample and the unified envelope
`process_file` builds for it. -/
def c1Unified : Unified :=
  convert_to_unified .text (sectionsToPyVal (parse_text_sections "key=value".data))

/-! ## Claims C5 and C6: desensitization passes -/

/-- Text after the IP pass (the phone pass input). -/
def stage1 (cfg : DesensConfig) (t : List Char) : List Char := (ip_pass cfg t).1

/-- Text after the phone pass (the IMSI pass input). -/
def stage2 (cfg : DesensConfig) (t : List Char) : List Char :=
  (phone_pass cfg (stage1 cfg t)).1

/-- Text after the IMSI pass (the IMEI pass input). -/
def stage3 (cfg : DesensConfig) (t : List Char) : List Char :=
  (id_pass cfg.imsi cfg.idHash (stage2 cfg t)).1

/-- Text after the IMEI pass (the passwords pass input). -/
def stage4 (cfg : DesensConfig) (t : List Char) : List Char :=
  (id_pass cfg.imei cfg.idHash (stage3 cfg t)).1

/-- Text after the passwords pass (the customers pass input). -/
def stage5 (cfg : DesensConfig) (t : List Char) : List Char :=
  (passwords_pass cfg (stage4 cfg t)).1

/-- Text after the customers pass (the URL pass input). -/
def stage6 (cfg : DesensConfig) (t : List Char) : List Char :=
  (customers_pass cfg (stage5 cfg t)).1

/-- Specification-side abbreviation: the number of source lines emitted by
the merge after the first `m` fixed-lines chunks (`0` for `m = 0`, else the
end line of chunk `m - 1`). -/
def flE (W s L m : Nat) : Nat :=
  if m = 0 then 0 else min ((m - 1) * s + W) L

/-! ## Theorems -/

theorem splitNl_ne_nil (s : List Char) : splitNl s ≠ [] := by
  cases s with
  | nil => simp [splitNl]
  | cons c rest =>
    cases h : splitNl rest with
    | nil => simp [splitNl, h]
    | cons l ls =>
      simp only [splitNl, h]
      split <;> simp

theorem joinNl_cons (l : List Char) (ls : List (List Char)) (h : ls ≠ []) :
    joinNl (l :: ls) = l ++ '\n' :: joinNl ls := by
  cases ls with
  | nil => exact absurd rfl h
  | cons m ms => rfl

theorem joinNl_splitNl (s : List Char) : joinNl (splitNl s) = s := by
  induction s with
  | nil => rfl
  | cons c rest ih =>
    cases h : splitNl rest with
    | nil => exact absurd h (splitNl_ne_nil rest)
    | cons l ls =>
      rw [h] at ih
      by_cases hc : c = '\n'
      · subst hc
        have hgoal : splitNl ('\n' :: rest) = [] :: l :: ls := by simp [splitNl, h]
        rw [hgoal, joinNl_cons _ _ (by simp)]
        simpa using ih
      · have hgoal : splitNl (c :: rest) = (c :: l) :: ls := by simp [splitNl, h, hc]
        rw [hgoal]
        cases ls with
        | nil =>
          simp only [joinNl] at ih ⊢
          rw [ih]
        | cons m ms =>
          rw [joinNl_cons _ _ (by simp)] at ih ⊢
          simpa using ih

theorem mem_splitNl_no_newline (s : List Char) :
    ∀ l ∈ splitNl s, '\n' ∉ l := by
  induction s with
  | nil => intro l hl; simp [splitNl] at hl; simp [hl]
  | cons c rest ih =>
    intro l hl
    cases h : splitNl rest with
    | nil => exact absurd h (splitNl_ne_nil rest)
    | cons m ms =>
      rw [h] at ih
      by_cases hc : c = '\n'
      · have hgoal : splitNl (c :: rest) = [] :: m :: ms := by simp [splitNl, h, hc]
        rw [hgoal] at hl
        rcases List.mem_cons.mp hl with rfl | hl
        · simp
        · exact ih l hl
      · have hgoal : splitNl (c :: rest) = (c :: m) :: ms := by simp [splitNl, h, hc]
        rw [hgoal] at hl
        rcases List.mem_cons.mp hl with rfl | hl
        · intro hmem
          rcases List.mem_cons.mp hmem with rfl | hmem
          · exact hc rfl
          · exact ih m (by simp) hmem
        · exact ih l (List.mem_cons_of_mem _ hl)

theorem splitNl_singleton (l : List Char) (h : '\n' ∉ l) : splitNl l = [l] := by
  induction l with
  | nil => rfl
  | cons c cs ih =>
    have hcs : '\n' ∉ cs := fun hx => h (List.mem_cons_of_mem _ hx)
    have hc : ¬ c = '\n' := fun hc => h (by simp [hc])
    simp [splitNl, ih hcs, hc]

theorem splitNl_append_newline (a b : List Char) :
    splitNl (a ++ '\n' :: b) = splitNl a ++ splitNl b := by
  induction a with
  | nil =>
    cases h : splitNl b with
    | nil => exact absurd h (splitNl_ne_nil b)
    | cons l ls => simp [splitNl, h]
  | cons c rest ih =>
    cases h : splitNl rest with
    | nil => exact absurd h (splitNl_ne_nil rest)
    | cons l ls =>
      rw [h] at ih
      have hih : splitNl (rest ++ '\n' :: b) = l :: (ls ++ splitNl b) := by simpa using ih
      by_cases hc : c = '\n'
      · have h1 : splitNl (c :: (rest ++ '\n' :: b)) = [] :: l :: (ls ++ splitNl b) := by
          simp [splitNl, hih, hc]
        have h2 : splitNl (c :: rest) = [] :: l :: ls := by simp [splitNl, h, hc]
        simp [h1, h2]
      · have h1 : splitNl (c :: (rest ++ '\n' :: b)) = (c :: l) :: (ls ++ splitNl b) := by
          simp [splitNl, hih, hc]
        have h2 : splitNl (c :: rest) = (c :: l) :: ls := by simp [splitNl, h, hc]
        simp [h1, h2]

theorem splitNl_joinNl (ls : List (List Char)) (hne : ls ≠ [])
    (h : ∀ l ∈ ls, '\n' ∉ l) : splitNl (joinNl ls) = ls := by
  induction ls with
  | nil => exact absurd rfl hne
  | cons l ls ih =>
    cases ls with
    | nil => simpa [joinNl] using splitNl_singleton l (h l (by simp))
    | cons m ms =>
      rw [joinNl_cons _ _ (by simp), splitNl_append_newline,
        splitNl_singleton l (h l (by simp)),
        ih (by simp) (fun x hx => h x (List.mem_cons_of_mem _ hx))]
      rfl

theorem length_splitNl_pos (s : List Char) : 0 < (splitNl s).length := by
  cases h : splitNl s with
  | nil => exact absurd h (splitNl_ne_nil s)
  | cons l ls => simp

/-! ## Supporting lemmas -/

theorem alookup_eq_none_iff {β : Type} (m : List (List Char × β)) (k : List Char) :
    alookup m k = none ↔ k ∉ m.map Prod.fst := by
  induction m with
  | nil => simp [alookup]
  | cons p rest ih =>
    rcases p with ⟨k', v⟩
    by_cases h : k' = k
    · subst h
      simp only [alookup, if_pos rfl, List.map_cons, List.mem_cons]
      constructor
      · intro hnone
        exact absurd hnone (Option.some_ne_none v)
      · intro hmem
        exact absurd (Or.inl trivial) hmem
    · simp only [alookup, if_neg h, List.map_cons, List.mem_cons, ih]
      constructor
      · intro hk hor
        rcases hor with rfl | hmem
        · exact h rfl
        · exact hk hmem
      · intro hk
        exact fun hmem => hk (Or.inr hmem)

theorem alookup_some_mem {β : Type} (m : List (List Char × β)) (k : List Char)
    (w : β) (h : alookup m k = some w) : (k, w) ∈ m := by
  induction m with
  | nil => simp [alookup] at h
  | cons p rest ih =>
    rcases p with ⟨k', v⟩
    by_cases hp : k' = k
    · subst hp
      simp only [alookup, if_pos rfl] at h
      cases h
      exact List.mem_cons_self _ _
    · simp only [alookup, if_neg hp] at h
      exact List.mem_cons_of_mem _ (ih h)

theorem mem_dedupFirstAux (l : List (List Char)) :
    ∀ (seen : List (List Char)) (x : List Char),
      x ∈ dedupFirstAux seen l ↔ x ∈ l ∧ x ∉ seen := by
  induction l with
  | nil => simp [dedupFirstAux]
  | cons y ys ih =>
    intro seen x
    by_cases hy : y ∈ seen
    · simp only [dedupFirstAux, if_pos hy, ih]
      constructor
      · rintro ⟨hx, hs⟩
        exact ⟨List.mem_cons_of_mem _ hx, hs⟩
      · rintro ⟨hx, hs⟩
        rcases List.mem_cons.mp hx with rfl | hx
        · exact absurd hy hs
        · exact ⟨hx, hs⟩
    · simp only [dedupFirstAux, if_neg hy, List.mem_cons, ih]
      constructor
      · rintro (rfl | ⟨hx, hs⟩)
        · exact ⟨Or.inl rfl, hy⟩
        · refine ⟨Or.inr hx, fun hxs => hs ?_⟩
          simp [hxs]
      · rintro ⟨rfl | hx, hs⟩
        · exact Or.inl rfl
        · by_cases hxy : x = y
          · exact Or.inl hxy
          · refine Or.inr ⟨hx, fun hxs => ?_⟩
            rcases List.mem_append.mp hxs with h1 | h1
            · exact hs h1
            · simp at h1
              exact hxy h1

theorem nodup_dedupFirstAux (l : List (List Char)) :
    ∀ seen : List (List Char), (dedupFirstAux seen l).Nodup := by
  induction l with
  | nil => intro seen; simp [dedupFirstAux]
  | cons y ys ih =>
    intro seen
    by_cases hy : y ∈ seen
    · simpa [dedupFirstAux, hy] using ih seen
    · simp only [dedupFirstAux, if_neg hy, List.nodup_cons]
      refine ⟨fun hmem => ?_, ih _⟩
      have := (mem_dedupFirstAux ys (seen ++ [y]) y).mp hmem
      simp at this

/-- The master lemma about the memoising replacement closures: when every
binding already in the mapping agrees with the mask function, the
substitution renders every match through the mask function and appends one
binding per newly seen distinct value. -/
theorem applyMemo_render (f : List Char → List Char) :
    ∀ (segs : List Seg) (m : PyDict), (∀ p ∈ m, p.2 = f p.1) →
      applyMemo f segs m =
        (segRender f segs,
         m ++ (dedupFirstAux (m.map Prod.fst) (segMatches segs)).map (fun v => (v, f v))) := by
  intro segs
  induction segs with
  | nil => intro m hm; simp [applyMemo, segRender, segMatches, dedupFirstAux]
  | cons s rest ih =>
    intro m hm
    cases s with
    | chr c =>
      have hrec := ih m hm
      simp [applyMemo, hrec, segRender, segMatches]
    | mtch v =>
      cases hl : alookup m v with
      | some w =>
        have hw : w = f v := hm _ (alookup_some_mem m v w hl)
        have hv : v ∈ m.map Prod.fst := by
          by_contra hvm
          rw [← alookup_eq_none_iff] at hvm
          rw [hvm] at hl
          cases hl
        have hrec := ih m hm
        simp [applyMemo, hl, hrec, segRender, segMatches, dedupFirstAux, hv, hw]
      | none =>
        have hv : v ∉ m.map Prod.fst := (alookup_eq_none_iff m v).mp hl
        have hm' : ∀ p ∈ m ++ [(v, f v)], p.2 = f p.1 := by
          intro p hp
          rcases List.mem_append.mp hp with hp | hp
          · exact hm p hp
          · simp at hp
            simp [hp]
        have hrec := ih (m ++ [(v, f v)]) hm'
        simp [applyMemo, hl, hrec, segRender, segMatches, dedupFirstAux, hv]

/-- Every memoising substitution pass is consistent: equal original values
always receive the identical mask and the local mapping holds exactly one
entry per distinct matched value. -/
theorem memoSub_consistent (mt : Matcher) (f : List Char → List Char) (t : List Char) :
    MemoConsistent mt f t := by
  unfold MemoConsistent memoSub dedupFirst passMatches
  simpa using applyMemo_render f (scanSegs mt t) [] (by simp)

/-! ## Claim C1: what text the Orchestrator hands to the Desensitizer -/

/-- C1 (counterexample): the claim says `process_file` passes the original
file text to `desensitize_text` even when format conversion was requested.
For the text file `sample.txt` with raw content `key=value` and
`convert_format=True`, Step 3 of `process_file` hands the Desensitizer the
unified structure rendered back to text (`[default]\n  key = value`), which
differs from the raw content — the claim is false. -/
theorem c1_desens_input_counterexample :
    process_file_desens_input_text "sample.txt".data "key=value".data =
      some "[default]\n  key = value".data ∧
    ¬ (process_file_desens_input_text "sample.txt".data "key=value".data =
      some "key=value".data) := by
  decide

/-- C1 (amended): the Desensitizer receives the raw file content byte for
byte exactly when format conversion is *not* requested; when format
conversion is requested it receives `_unified_to_text(unified)`, the
parsed/unified structure rendered back to text (for text-format files, the
unified envelope built from `parse_text`). -/
theorem c1_desens_input_amended (path raw : List Char) (u : Unified)
    (h : converter_process_file_text path raw = some u) :
    desensitize_input false raw u = raw ∧
    desensitize_input true raw u = unified_to_text u ∧
    process_file_desens_input_text path raw = some (unified_to_text u) := by
  refine ⟨rfl, rfl, ?_⟩
  simp [process_file_desens_input_text, h, desensitize_input]

/-- C1 witness: the amended data-flow statement at the concrete input of the
counterexample. -/
theorem c1_desens_input_amended_witness :
    desensitize_input false "key=value".data c1Unified = "key=value".data ∧
    desensitize_input true "key=value".data c1Unified = unified_to_text c1Unified ∧
    process_file_desens_input_text "sample.txt".data "key=value".data =
      some (unified_to_text c1Unified) :=
  c1_desens_input_amended "sample.txt".data "key=value".data c1Unified rfl

/-! ## Claim C4: smart chunking and preserve blocks -/

/-- C4 (code bug): `_smart_chunking` intends to append a preserve block once
and skip its remaining lines (`line_no = block_end`, commented "skip the
processed lines"), but assigning to a Python `for` loop variable does not
skip iterations, so the whole block is re-appended once per block line.  On
the 3-line text `a\nb\nc` with a preserve block spanning lines 1–2, the
single produced chunk contains the block twice: its content is
`a\nb\na\nb\nc`, and the block text `a\nb` occurs 2 times instead of once. -/
theorem c4_preserve_block_duplication :
    identify_preserve_blocks c4cfg (splitNl "a\nb\nc".data) = [(1, 2)] ∧
    (smart_chunking c4cfg "a\nb\nc".data).map
      (fun c => (c.chunk_id, c.start_line, c.end_line, c.content)) =
      [(0, 1, 3, "a\nb\na\nb\nc".data)] ∧
    countSub "a\nb".data "a\nb\na\nb\nc".data = 2 ∧
    countSub "a\nb".data "a\nb\nc".data = 1 := by
  decide

/-! ## Claim C8: processing a non-existent path -/

/-- C8: for every path that does not exist, `process_file` returns a failed
`ProcessingResult` with a non-empty error list and no processed artifacts,
and (being a total function of the modelled inputs) does not raise to the
caller. -/
theorem c8_missing_file_result (fsExists : List Char → Bool)
    (pipeline : List Char → Except (List Char × List (List Char)) PipelineOutcome)
    (path : List Char) (h : fsExists path = false) :
    (process_file_result fsExists pipeline path).success = false ∧
    (process_file_result fsExists pipeline path).errors ≠ [] ∧
    (process_file_result fsExists pipeline path).processed_files = [] := by
  simp [process_file_result, h]

/-- C8 witness: a concrete filesystem with no files and a trivial pipeline
body. -/
theorem c8_missing_file_result_witness :
    (process_file_result (fun _ => false)
        (fun _ => .ok { original_format := "text".data, processed_files := [] })
        "missing.txt".data).success = false ∧
    (process_file_result (fun _ => false)
        (fun _ => .ok { original_format := "text".data, processed_files := [] })
        "missing.txt".data).errors ≠ [] ∧
    (process_file_result (fun _ => false)
        (fun _ => .ok { original_format := "text".data, processed_files := [] })
        "missing.txt".data).processed_files = [] :=
  c8_missing_file_result (fun _ => false) _ "missing.txt".data rfl

/-! ## Claim C10: totality envelope of fixed-lines chunking -/

/-- C10: with overlap equal to the window, `chunk_text` (fixed_lines) hits
the zero-stride `range` and raises `ValueError`; with overlap greater than
the window it returns an empty chunk list even though the text always has at
least one line; with overlap strictly below the window it terminates (the
embedding is a total function) and yields at least one chunk for every
text. -/
theorem c10_fixed_lines_totality (cfg : ChunkCfg) (t : List Char)
    (hs : cfg.strategy = "fixed_lines".data) (he : cfg.enabled = true) :
    (cfg.overlap_lines = cfg.chunk_size_lines →
      chunk_text cfg t = .error "ValueError: range() arg 3 must not be zero".data) ∧
    (cfg.chunk_size_lines < cfg.overlap_lines → chunk_text cfg t = .ok []) ∧
    (cfg.overlap_lines < cfg.chunk_size_lines →
      ∃ cs, chunk_text cfg t = .ok cs ∧ 1 ≤ cs.length) := by
  have hdisp : chunk_text cfg t = fixed_lines_chunking cfg t := by
    have h1 : ¬ cfg.strategy = "smart".data := by rw [hs]; decide
    simp [chunk_text, he, hs, h1]
  rw [hdisp]
  unfold fixed_lines_chunking
  refine ⟨fun hov => ?_, fun hov => ?_, fun hov => ?_⟩
  · have hz : (cfg.chunk_size_lines : Int) - (cfg.overlap_lines : Int) = 0 := by omega
    simp [hz]
  · have hz : ¬ ((cfg.chunk_size_lines : Int) - (cfg.overlap_lines : Int) = 0) := by omega
    have hneg : (cfg.chunk_size_lines : Int) - (cfg.overlap_lines : Int) < 0 := by omega
    simp [hz, hneg]
  · have hz : ¬ ((cfg.chunk_size_lines : Int) - (cfg.overlap_lines : Int) = 0) := by omega
    have hnneg : ¬ ((cfg.chunk_size_lines : Int) - (cfg.overlap_lines : Int) < 0) := by omega
    simp only [hz, hnneg, if_false, if_neg, reduceIte]
    refine ⟨_, rfl, ?_⟩
    rw [List.length_map, List.length_range]
    have hsn : ((cfg.chunk_size_lines : Int) - (cfg.overlap_lines : Int)).toNat =
        cfg.chunk_size_lines - cfg.overlap_lines := by omega
    have hL : 1 ≤ (splitNl t).length := length_splitNl_pos t
    rw [hsn]
    rw [Nat.le_div_iff_mul_le (by omega)]
    omega

/-- C10 witness: window 5 with overlaps 5, 7 and 2 on a 2-line text. -/
theorem c10_fixed_lines_totality_witness :
    (5 = 5 →
      chunk_text (c10cfg 5 5) "a\nb".data =
        .error "ValueError: range() arg 3 must not be zero".data) ∧
    ((c10cfg 5 7).chunk_size_lines < (c10cfg 5 7).overlap_lines →
      chunk_text (c10cfg 5 7) "a\nb".data = .ok []) ∧
    ((c10cfg 5 2).overlap_lines < (c10cfg 5 2).chunk_size_lines →
      ∃ cs, chunk_text (c10cfg 5 2) "a\nb".data = .ok cs ∧ 1 ≤ cs.length) := by
  refine ⟨fun _ => ?_, fun h => ?_, fun h => ?_⟩
  · exact (c10_fixed_lines_totality (c10cfg 5 5) "a\nb".data rfl rfl).1 rfl
  · exact (c10_fixed_lines_totality (c10cfg 5 7) "a\nb".data rfl rfl).2.1 h
  · exact (c10_fixed_lines_totality (c10cfg 5 2) "a\nb".data rfl rfl).2.2 h

/-! ## Claim C2: fixed-lines chunk count and sizes -/

theorem chunk_text_fixed_lines (cfg : ChunkCfg) (t : List Char)
    (hs : cfg.strategy = "fixed_lines".data) (he : cfg.enabled = true) :
    chunk_text cfg t = fixed_lines_chunking cfg t := by
  have h1 : ¬ cfg.strategy = "smart".data := by rw [hs]; decide
  simp [chunk_text, he, hs, h1]

theorem fixed_lines_chunking_pos (cfg : ChunkCfg) (t : List Char)
    (hov : cfg.overlap_lines < cfg.chunk_size_lines) :
    fixed_lines_chunking cfg t =
      .ok ((List.range
          (((splitNl t).length + (cfg.chunk_size_lines - cfg.overlap_lines) - 1) /
            (cfg.chunk_size_lines - cfg.overlap_lines))).map
        (fl_chunk cfg (splitNl t) (cfg.chunk_size_lines - cfg.overlap_lines))) := by
  have hz : ¬ ((cfg.chunk_size_lines : Int) - (cfg.overlap_lines : Int) = 0) := by omega
  have hnneg : ¬ ((cfg.chunk_size_lines : Int) - (cfg.overlap_lines : Int) < 0) := by omega
  have hsn : ((cfg.chunk_size_lines : Int) - (cfg.overlap_lines : Int)).toNat =
      cfg.chunk_size_lines - cfg.overlap_lines := by omega
  unfold fixed_lines_chunking
  simp only [hz, hnneg, if_false, reduceIte, hsn]

theorem count_window_lt (L s k count : Nat) (hs : 1 ≤ s)
    (hcount : count = (L + s - 1) / s) (hk : k < count) : k * s < L := by
  subst hcount
  have h1 : (k + 1) * s ≤ ((L + s - 1) / s) * s :=
    Nat.mul_le_mul_right s hk
  have h2 : ((L + s - 1) / s) * s ≤ L + s - 1 := Nat.div_mul_le_self _ _
  have h3 : (k + 1) * s = k * s + s := by ring
  omega

theorem fl_chunk_lines_eq (cfg : ChunkCfg) (lines : List (List Char)) (s k : Nat)
    (hW : 1 ≤ cfg.chunk_size_lines) (hk : k * s < lines.length)
    (hnl : ∀ l ∈ lines, '\n' ∉ l) :
    splitNl (fl_chunk cfg lines s k).content =
      (lines.drop (k * s)).take
        (min (k * s + cfg.chunk_size_lines) lines.length - k * s) := by
  have hlen : ((lines.drop (k * s)).take
      (min (k * s + cfg.chunk_size_lines) lines.length - k * s)).length =
      min cfg.chunk_size_lines (lines.length - k * s) := by
    rw [List.length_take, List.length_drop]
    omega
  apply splitNl_joinNl
  · intro hnil
    rw [hnil] at hlen
    simp at hlen
    omega
  · intro l hl
    exact hnl l (List.drop_subset _ _ (List.take_subset _ _ hl))

theorem fl_chunk_num_lines (cfg : ChunkCfg) (lines : List (List Char)) (s k : Nat)
    (hW : 1 ≤ cfg.chunk_size_lines) (hk : k * s < lines.length)
    (hnl : ∀ l ∈ lines, '\n' ∉ l) :
    (splitNl (fl_chunk cfg lines s k).content).length =
      min cfg.chunk_size_lines (lines.length - k * s) := by
  rw [fl_chunk_lines_eq cfg lines s k hW hk hnl, List.length_take, List.length_drop]
  omega

/-- C2 (counterexample): with window 10 and overlap 2 on a 17-line text
(17 > 10), the code produces 3 chunks — the loop `range(0, 17, 8)` visits
0, 8 and 16 — while the claimed formula `⌈(L−O)/(W−O)⌉ = ⌈15/8⌉` gives 2;
moreover the non-final second chunk has 9 lines, not W = 10. -/
theorem c2_fixed_lines_counterexample :
    (splitNl c2Text).length = 17 ∧
    (chunk_text c2cfg c2Text).toOption.map
      (fun cs => (cs.length, cs.map (fun c => (splitNl c.content).length))) =
      some (3, [10, 9, 1]) ∧
    ¬ ((3 : Nat) = (17 - 2 + (10 - 2) - 1) / (10 - 2)) ∧
    ¬ ((9 : Nat) = 10) := by
  decide

/-- C2 (amended): for fixed-lines chunking with window W and overlap O < W
on any text of L lines, the number of chunks is `⌈L / (W − O)⌉` (not
`⌈(L−O)/(W−O)⌉`), and chunk k holds exactly `min W (L − k·(W−O))` lines —
so every chunk has at most W lines, and chunk k has exactly W lines
precisely when `k·(W−O) + W ≤ L`. -/
theorem c2_fixed_lines_count_amended (cfg : ChunkCfg) (t : List Char)
    (hs : cfg.strategy = "fixed_lines".data) (he : cfg.enabled = true)
    (hov : cfg.overlap_lines < cfg.chunk_size_lines) :
    ∃ cs, chunk_text cfg t = .ok cs ∧
      cs.length = ((splitNl t).length + (cfg.chunk_size_lines - cfg.overlap_lines) - 1) /
        (cfg.chunk_size_lines - cfg.overlap_lines) ∧
      ∀ k (hk : k < cs.length),
        (splitNl (cs.get ⟨k, hk⟩).content).length =
          min cfg.chunk_size_lines
            ((splitNl t).length - k * (cfg.chunk_size_lines - cfg.overlap_lines)) := by
  rw [chunk_text_fixed_lines cfg t hs he, fixed_lines_chunking_pos cfg t hov]
  refine ⟨_, rfl, ?_, ?_⟩
  · rw [List.length_map, List.length_range]
  · intro k hk
    rw [List.length_map, List.length_range] at hk
    have hkL : k * (cfg.chunk_size_lines - cfg.overlap_lines) < (splitNl t).length :=
      count_window_lt _ _ _ _ (by omega) rfl hk
    have hget : (((List.range
        (((splitNl t).length + (cfg.chunk_size_lines - cfg.overlap_lines) - 1) /
          (cfg.chunk_size_lines - cfg.overlap_lines))).map
        (fl_chunk cfg (splitNl t) (cfg.chunk_size_lines - cfg.overlap_lines))).get
          ⟨k, by rw [List.length_map, List.length_range]; exact hk⟩) =
        fl_chunk cfg (splitNl t) (cfg.chunk_size_lines - cfg.overlap_lines) k := by
      simp
    rw [hget]
    exact fl_chunk_num_lines cfg (splitNl t) _ k (by omega) hkL
      (mem_splitNl_no_newline t)

/-- C2 witness: the amended count and size facts at window 10, overlap 2,
on the 17-line text. -/
theorem c2_fixed_lines_count_amended_witness :
    ∃ cs, chunk_text c2cfg c2Text = .ok cs ∧
      cs.length = ((splitNl c2Text).length + (c2cfg.chunk_size_lines - c2cfg.overlap_lines) - 1) /
        (c2cfg.chunk_size_lines - c2cfg.overlap_lines) ∧
      ∀ k (hk : k < cs.length),
        (splitNl (cs.get ⟨k, hk⟩).content).length =
          min c2cfg.chunk_size_lines
            ((splitNl c2Text).length - k * (c2cfg.chunk_size_lines - c2cfg.overlap_lines)) :=
  c2_fixed_lines_count_amended c2cfg c2Text rfl rfl (by decide)

theorem desensitize_text_eq (cfg : DesensConfig) (t : List Char)
    (he : cfg.enabled = true) :
    desensitize_text cfg t =
      ((urls_pass cfg (stage6 cfg t)).1,
       ⟨(ip_pass cfg t).2, (phone_pass cfg (stage1 cfg t)).2,
        (id_pass cfg.imsi cfg.idHash (stage2 cfg t)).2,
        (id_pass cfg.imei cfg.idHash (stage3 cfg t)).2,
        (passwords_pass cfg (stage4 cfg t)).2,
        (customers_pass cfg (stage5 cfg t)).2,
        (urls_pass cfg (stage6 cfg t)).2⟩) := by
  simp [desensitize_text, he, stage1, stage2, stage3, stage4, stage5, stage6]

theorem map_fst_canonical (f : List Char → List Char) (l : List (List Char)) :
    (l.map (fun v => (v, f v))).map Prod.fst = l := by
  induction l with
  | nil => rfl
  | cons x xs ih => simp [ih]

theorem memoSub_snd (mt : Matcher) (f : List Char → List Char) (t : List Char) :
    (memoSub mt f t).2 = (dedupFirst (passMatches mt t)).map (fun v => (v, f v)) := by
  rw [memoSub_consistent mt f t]

theorem memoSub_fst (mt : Matcher) (f : List Char → List Char) (t : List Char) :
    (memoSub mt f t).1 = segRender f (scanSegs mt t) := by
  rw [memoSub_consistent mt f t]

/-- C6: within one `desensitize_text` call, each of the memoising category
passes (IP address, phone number, IMSI, IMEI, URL) replaces every occurrence
of an original value `v` — also repeated ones — by the single mask computed
from `v`, and records exactly one mapping entry per distinct original value
(keys without duplicates, in first-seen order), where each pass runs over
its stage input text within the pass chain. -/
theorem c6_mask_consistency (cfg : DesensConfig) (t : List Char)
    (he : cfg.enabled = true) :
    (∀ p keep, cfg.ip = some (p, keep) →
      MemoConsistent p.matchAt (ipMaskFn keep p.replacement) t ∧
      (desensitize_text cfg t).2.ip_addresses =
        (dedupFirst (passMatches p.matchAt t)).map
          (fun v => (v, ipMaskFn keep p.replacement v)) ∧
      (((desensitize_text cfg t).2.ip_addresses).map Prod.fst).Nodup) ∧
    (∀ p, cfg.phone = some p →
      MemoConsistent p.matchAt phoneMaskFn (stage1 cfg t) ∧
      (desensitize_text cfg t).2.phone_numbers =
        (dedupFirst (passMatches p.matchAt (stage1 cfg t))).map
          (fun v => (v, phoneMaskFn v)) ∧
      (((desensitize_text cfg t).2.phone_numbers).map Prod.fst).Nodup) ∧
    (∀ p, cfg.imsi = some p →
      MemoConsistent p.matchAt (idMaskFn p.replacement cfg.idHash) (stage2 cfg t) ∧
      (desensitize_text cfg t).2.imsi =
        (dedupFirst (passMatches p.matchAt (stage2 cfg t))).map
          (fun v => (v, idMaskFn p.replacement cfg.idHash v)) ∧
      (((desensitize_text cfg t).2.imsi).map Prod.fst).Nodup) ∧
    (∀ p, cfg.imei = some p →
      MemoConsistent p.matchAt (idMaskFn p.replacement cfg.idHash) (stage3 cfg t) ∧
      (desensitize_text cfg t).2.imei =
        (dedupFirst (passMatches p.matchAt (stage3 cfg t))).map
          (fun v => (v, idMaskFn p.replacement cfg.idHash v)) ∧
      (((desensitize_text cfg t).2.imei).map Prod.fst).Nodup) ∧
    (∀ p keep, cfg.url = some (p, keep) →
      MemoConsistent p.matchAt (urlMaskFn keep p.replacement) (stage6 cfg t) ∧
      (desensitize_text cfg t).2.urls =
        (dedupFirst (passMatches p.matchAt (stage6 cfg t))).map
          (fun v => (v, urlMaskFn keep p.replacement v)) ∧
      (((desensitize_text cfg t).2.urls).map Prod.fst).Nodup) := by
  rw [desensitize_text_eq cfg t he]
  refine ⟨?_, ?_, ?_, ?_, ?_⟩
  · intro p keep hip
    have h1 : ip_pass cfg t = memoSub p.matchAt (ipMaskFn keep p.replacement) t := by
      simp [ip_pass, hip]
    refine ⟨memoSub_consistent _ _ _, ?_, ?_⟩
    · simpa [h1] using memoSub_snd p.matchAt (ipMaskFn keep p.replacement) t
    · have h2 := memoSub_snd p.matchAt (ipMaskFn keep p.replacement) t
      simp only [h1, h2, map_fst_canonical]
      exact nodup_dedupFirstAux _ _
  · intro p hph
    have h1 : phone_pass cfg (stage1 cfg t) =
        memoSub p.matchAt phoneMaskFn (stage1 cfg t) := by
      simp [phone_pass, hph]
    refine ⟨memoSub_consistent _ _ _, ?_, ?_⟩
    · simpa [h1] using memoSub_snd p.matchAt phoneMaskFn (stage1 cfg t)
    · have h2 := memoSub_snd p.matchAt phoneMaskFn (stage1 cfg t)
      simp only [h1, h2, map_fst_canonical]
      exact nodup_dedupFirstAux _ _
  · intro p him
    have h1 : id_pass cfg.imsi cfg.idHash (stage2 cfg t) =
        memoSub p.matchAt (idMaskFn p.replacement cfg.idHash) (stage2 cfg t) := by
      simp [id_pass, him]
    refine ⟨memoSub_consistent _ _ _, ?_, ?_⟩
    · simpa [h1] using
        memoSub_snd p.matchAt (idMaskFn p.replacement cfg.idHash) (stage2 cfg t)
    · have h2 := memoSub_snd p.matchAt (idMaskFn p.replacement cfg.idHash) (stage2 cfg t)
      simp only [h1, h2, map_fst_canonical]
      exact nodup_dedupFirstAux _ _
  · intro p him
    have h1 : id_pass cfg.imei cfg.idHash (stage3 cfg t) =
        memoSub p.matchAt (idMaskFn p.replacement cfg.idHash) (stage3 cfg t) := by
      simp [id_pass, him]
    refine ⟨memoSub_consistent _ _ _, ?_, ?_⟩
    · simpa [h1] using
        memoSub_snd p.matchAt (idMaskFn p.replacement cfg.idHash) (stage3 cfg t)
    · have h2 := memoSub_snd p.matchAt (idMaskFn p.replacement cfg.idHash) (stage3 cfg t)
      simp only [h1, h2, map_fst_canonical]
      exact nodup_dedupFirstAux _ _
  · intro p keep hurl
    have h1 : urls_pass cfg (stage6 cfg t) =
        memoSub p.matchAt (urlMaskFn keep p.replacement) (stage6 cfg t) := by
      simp [urls_pass, hurl]
    refine ⟨memoSub_consistent _ _ _, ?_, ?_⟩
    · simpa [h1] using
        memoSub_snd p.matchAt (urlMaskFn keep p.replacement) (stage6 cfg t)
    · have h2 := memoSub_snd p.matchAt (urlMaskFn keep p.replacement) (stage6 cfg t)
      simp only [h1, h2, map_fst_canonical]
      exact nodup_dedupFirstAux _ _

/-- C6 witness: the consistency statement at the default configuration on a
text with a repeated IP address. -/
theorem c6_mask_consistency_witness :
    (∀ p keep, cfgDefault.ip = some (p, keep) →
      MemoConsistent p.matchAt (ipMaskFn keep p.replacement)
        "a 1.2.3.4 b 1.2.3.4".data ∧
      (desensitize_text cfgDefault "a 1.2.3.4 b 1.2.3.4".data).2.ip_addresses =
        (dedupFirst (passMatches p.matchAt "a 1.2.3.4 b 1.2.3.4".data)).map
          (fun v => (v, ipMaskFn keep p.replacement v)) ∧
      (((desensitize_text cfgDefault
          "a 1.2.3.4 b 1.2.3.4".data).2.ip_addresses).map Prod.fst).Nodup) ∧
    (∀ p, cfgDefault.phone = some p →
      MemoConsistent p.matchAt phoneMaskFn
        (stage1 cfgDefault "a 1.2.3.4 b 1.2.3.4".data) ∧
      (desensitize_text cfgDefault "a 1.2.3.4 b 1.2.3.4".data).2.phone_numbers =
        (dedupFirst (passMatches p.matchAt
          (stage1 cfgDefault "a 1.2.3.4 b 1.2.3.4".data))).map
          (fun v => (v, phoneMaskFn v)) ∧
      (((desensitize_text cfgDefault
          "a 1.2.3.4 b 1.2.3.4".data).2.phone_numbers).map Prod.fst).Nodup) ∧
    (∀ p, cfgDefault.imsi = some p →
      MemoConsistent p.matchAt (idMaskFn p.replacement cfgDefault.idHash)
        (stage2 cfgDefault "a 1.2.3.4 b 1.2.3.4".data) ∧
      (desensitize_text cfgDefault "a 1.2.3.4 b 1.2.3.4".data).2.imsi =
        (dedupFirst (passMatches p.matchAt
          (stage2 cfgDefault "a 1.2.3.4 b 1.2.3.4".data))).map
          (fun v => (v, idMaskFn p.replacement cfgDefault.idHash v)) ∧
      (((desensitize_text cfgDefault
          "a 1.2.3.4 b 1.2.3.4".data).2.imsi).map Prod.fst).Nodup) ∧
    (∀ p, cfgDefault.imei = some p →
      MemoConsistent p.matchAt (idMaskFn p.replacement cfgDefault.idHash)
        (stage3 cfgDefault "a 1.2.3.4 b 1.2.3.4".data) ∧
      (desensitize_text cfgDefault "a 1.2.3.4 b 1.2.3.4".data).2.imei =
        (dedupFirst (passMatches p.matchAt
          (stage3 cfgDefault "a 1.2.3.4 b 1.2.3.4".data))).map
          (fun v => (v, idMaskFn p.replacement cfgDefault.idHash v)) ∧
      (((desensitize_text cfgDefault
          "a 1.2.3.4 b 1.2.3.4".data).2.imei).map Prod.fst).Nodup) ∧
    (∀ p keep, cfgDefault.url = some (p, keep) →
      MemoConsistent p.matchAt (urlMaskFn keep p.replacement)
        (stage6 cfgDefault "a 1.2.3.4 b 1.2.3.4".data) ∧
      (desensitize_text cfgDefault "a 1.2.3.4 b 1.2.3.4".data).2.urls =
        (dedupFirst (passMatches p.matchAt
          (stage6 cfgDefault "a 1.2.3.4 b 1.2.3.4".data))).map
          (fun v => (v, urlMaskFn keep p.replacement v)) ∧
      (((desensitize_text cfgDefault
          "a 1.2.3.4 b 1.2.3.4".data).2.urls).map Prod.fst).Nodup) :=
  c6_mask_consistency cfgDefault "a 1.2.3.4 b 1.2.3.4".data rfl

/-- C5 (counterexample): re-running `desensitize_text` on its own output is
*not* always a no-op.  On `13812345678.1.2.3` the first run masks the phone
number into `138****78.1.2.3`; on the second run the digits the phone mask
kept, adjacent to the undisturbed `.1.2.3`, form a fresh IPv4 match
`78.1.2.3`, so the second run changes the text again. -/
theorem c5_desens_not_idempotent_counterexample :
    (desensitize_text cfgDefault "13812345678.1.2.3".data).1 =
      "138****78.1.2.3".data ∧
    (desensitize_text cfgDefault
        (desensitize_text cfgDefault "13812345678.1.2.3".data).1).1 =
      "138****xxx.xxx.xxx.xxx".data ∧
    ¬ ((desensitize_text cfgDefault
        (desensitize_text cfgDefault "13812345678.1.2.3".data).1).1 =
      (desensitize_text cfgDefault "13812345678.1.2.3".data).1) := by
  decide

/-- C5 (amended): the exact-replacement half of the claim holds — for every
text, the `ip_addresses` mapping returned by `desensitize_text` has exactly
one entry per distinct IPv4 value matched by the configured pattern (the
keys are the distinct matches in first-seen order, without duplicates), each
entry carries that value's mask, and the IP pass output replaces every
matched occurrence by its mask.  The idempotence half is dropped: it fails
(see the counterexample). -/
theorem c5_ip_distinct_amended (cfg : DesensConfig) (t : List Char)
    (he : cfg.enabled = true) (p : PatternCfg) (keep : Bool)
    (hip : cfg.ip = some (p, keep)) :
    ((desensitize_text cfg t).2.ip_addresses).map Prod.fst =
      dedupFirst (passMatches p.matchAt t) ∧
    (((desensitize_text cfg t).2.ip_addresses).map Prod.fst).Nodup ∧
    (∀ v, v ∈ ((desensitize_text cfg t).2.ip_addresses).map Prod.fst ↔
      v ∈ passMatches p.matchAt t) ∧
    (ip_pass cfg t).1 =
      segRender (ipMaskFn keep p.replacement) (scanSegs p.matchAt t) ∧
    (∀ v w, (v, w) ∈ (desensitize_text cfg t).2.ip_addresses →
      w = ipMaskFn keep p.replacement v) := by
  have h1 : ip_pass cfg t = memoSub p.matchAt (ipMaskFn keep p.replacement) t := by
    simp [ip_pass, hip]
  have hmap : (desensitize_text cfg t).2.ip_addresses =
      (dedupFirst (passMatches p.matchAt t)).map
        (fun v => (v, ipMaskFn keep p.replacement v)) := by
    rw [desensitize_text_eq cfg t he]
    simpa [h1] using memoSub_snd p.matchAt (ipMaskFn keep p.replacement) t
  refine ⟨?_, ?_, ?_, ?_, ?_⟩
  · rw [hmap, map_fst_canonical]
  · rw [hmap, map_fst_canonical]
    exact nodup_dedupFirstAux _ _
  · intro v
    rw [hmap, map_fst_canonical]
    unfold dedupFirst
    rw [mem_dedupFirstAux]
    simp
  · rw [h1]
    exact memoSub_fst _ _ _
  · intro v w hvw
    rw [hmap] at hvw
    rcases List.mem_map.mp hvw with ⟨x, _, hx⟩
    cases hx
    rfl

/-- C5 witness: the amended statement at the default configuration on a
text holding three occurrences of two distinct IPv4 addresses. -/
theorem c5_ip_distinct_amended_witness :
    ((desensitize_text cfgDefault
        "a 1.2.3.4 b 5.6.7.8 then 1.2.3.4".data).2.ip_addresses).map Prod.fst =
      dedupFirst (passMatches ipMatchAt "a 1.2.3.4 b 5.6.7.8 then 1.2.3.4".data) ∧
    (((desensitize_text cfgDefault
        "a 1.2.3.4 b 5.6.7.8 then 1.2.3.4".data).2.ip_addresses).map Prod.fst).Nodup ∧
    (∀ v, v ∈ ((desensitize_text cfgDefault
        "a 1.2.3.4 b 5.6.7.8 then 1.2.3.4".data).2.ip_addresses).map Prod.fst ↔
      v ∈ passMatches ipMatchAt "a 1.2.3.4 b 5.6.7.8 then 1.2.3.4".data) ∧
    (ip_pass cfgDefault "a 1.2.3.4 b 5.6.7.8 then 1.2.3.4".data).1 =
      segRender (ipMaskFn false "xxx.xxx.xxx.xxx".data)
        (scanSegs ipMatchAt "a 1.2.3.4 b 5.6.7.8 then 1.2.3.4".data) ∧
    (∀ v w, (v, w) ∈ (desensitize_text cfgDefault
        "a 1.2.3.4 b 5.6.7.8 then 1.2.3.4".data).2.ip_addresses →
      w = ipMaskFn false "xxx.xxx.xxx.xxx".data v) :=
  c5_ip_distinct_amended cfgDefault "a 1.2.3.4 b 5.6.7.8 then 1.2.3.4".data rfl
    { matchAt := ipMatchAt, replacement := "xxx.xxx.xxx.xxx".data } false rfl

/-! ## Claim C7: format detection -/

/-- C7 (counterexample): the claim describes the sniff cascade on the raw
content ("content starts with `<`" etc.), but the code tests the
*whitespace-stripped* content for the leading-character cases.  For a path
without a recognized extension and sniffed content `  <a: -b` — which does
not start with `<`, `{` or `[` but contains both `:` and `-` — the claim's
cascade yields yaml, while `detect_format` strips first and returns xml. -/
theorem c7_detect_format_counterexample :
    recognized_extension "/tmp/config_dump".data = false ∧
    "  <a: -b".data.head? = some ' ' ∧
    (':' ∈ "  <a: -b".data ∧ '-' ∈ "  <a: -b".data) ∧
    detect_format "/tmp/config_dump".data (some "  <a: -b".data) = .xml ∧
    ¬ (detect_format "/tmp/config_dump".data (some "  <a: -b".data) = .yaml) := by
  decide

/-- C7 (amended): `detect_format` decides by extension first — `.json`
always yields json regardless of content — and sniffs only when the
extension is absent or unrecognized; the sniff cascade runs on the
*stripped* content for the leading-character tests: leading `<` gives xml,
leading `{`/`[` gives json, otherwise both `:` and `-` present in the (raw)
sniffed content gives yaml, otherwise text; a failed sniff read gives
unknown; detection is a total function (it never raises). -/
theorem c7_detect_format_amended (path : List Char) (sniff : Option (List Char)) :
    (pathExtension path = "json".data → detect_format path sniff = .json) ∧
    (recognized_extension path = false →
      (sniff = none → detect_format path sniff = .unknown) ∧
      (∀ content, sniff = some content →
        ((pyStrip content).head? = some '<' → detect_format path sniff = .xml) ∧
        (((pyStrip content).head? = some '{' ∨ (pyStrip content).head? = some '[') →
          detect_format path sniff = .json) ∧
        ((∀ c, (pyStrip content).head? = some c → ¬ (c = '<' ∨ c = '{' ∨ c = '[')) →
          ':' ∈ content → '-' ∈ content → detect_format path sniff = .yaml) ∧
        ((∀ c, (pyStrip content).head? = some c → ¬ (c = '<' ∨ c = '{' ∨ c = '[')) →
          ¬ (':' ∈ content ∧ '-' ∈ content) → detect_format path sniff = .text))) := by
  constructor
  · intro hext
    simp only [detect_format, hext]
    rfl
  · intro hrec
    have hr := hrec
    simp only [recognized_extension, Bool.or_eq_false_iff, decide_eq_false_iff_not] at hr
    obtain ⟨⟨⟨⟨⟨⟨⟨⟨⟨⟨h1, h2⟩, h3⟩, h4⟩, h5⟩, h6⟩, h7⟩, h8⟩, h9⟩, h10⟩, h11⟩ := hr
    constructor
    · intro hn
      subst hn
      simp only [detect_format]
      rw [if_neg h1, if_neg h2, if_neg (by tauto), if_neg (by tauto), if_neg (by tauto),
        if_neg (by tauto)]
    · intro content hsome
      subst hsome
      have hcascade : detect_format path (some content) =
          (match pyStrip content with
           | c :: _ =>
             if c = '<' then ConfigFormat.xml
             else if c = '{' ∨ c = '[' then ConfigFormat.json
             else if ':' ∈ content ∧ '-' ∈ content then ConfigFormat.yaml
             else ConfigFormat.text
           | [] =>
             if ':' ∈ content ∧ '-' ∈ content then ConfigFormat.yaml
             else ConfigFormat.text) := by
        simp only [detect_format]
        rw [if_neg h1, if_neg h2, if_neg (by tauto), if_neg (by tauto), if_neg (by tauto),
          if_neg (by tauto)]
      refine ⟨?_, ?_, ?_, ?_⟩
      · intro hhead
        cases hsp : pyStrip content with
        | nil => rw [hsp] at hhead; cases hhead
        | cons c cs =>
          rw [hsp] at hhead
          have hc : c = '<' := by simpa using hhead
          rw [hcascade]
          simp only [hsp]
          rw [if_pos hc]
      · intro hhead
        cases hsp : pyStrip content with
        | nil =>
          rw [hsp] at hhead
          rcases hhead with h | h <;> cases h
        | cons c cs =>
          rw [hsp] at hhead
          have hc : c = '{' ∨ c = '[' := by
            rcases hhead with h | h
            · exact Or.inl (by simpa using h)
            · exact Or.inr (by simpa using h)
          have hcne : ¬ c = '<' := by
            rcases hc with rfl | rfl <;> decide
          rw [hcascade]
          simp only [hsp]
          rw [if_neg hcne, if_pos hc]
      · intro hno hcolon hdash
        cases hsp : pyStrip content with
        | nil =>
          rw [hcascade]
          simp only [hsp]
          rw [if_pos ⟨hcolon, hdash⟩]
        | cons c cs =>
          have hnc := hno c (by rw [hsp]; rfl)
          push_neg at hnc
          rw [hcascade]
          simp only [hsp]
          rw [if_neg hnc.1, if_neg (by tauto), if_pos ⟨hcolon, hdash⟩]
      · intro hno hnotyaml
        cases hsp : pyStrip content with
        | nil =>
          rw [hcascade]
          simp only [hsp]
          rw [if_neg hnotyaml]
        | cons c cs =>
          have hnc := hno c (by rw [hsp]; rfl)
          push_neg at hnc
          rw [hcascade]
          simp only [hsp]
          rw [if_neg hnc.1, if_neg (by tauto), if_neg hnotyaml]

/-- C7 witness: each arm of the amended cascade at a concrete input. -/
theorem c7_detect_format_amended_witness :
    detect_format "a.JSON".data (some "<zzz".data) = .json ∧
    detect_format "noext".data none = .unknown ∧
    detect_format "noext".data (some " <x".data) = .xml ∧
    detect_format "noext".data (some "k: v - w".data) = .yaml ∧
    detect_format "noext".data (some "plain".data) = .text := by
  refine ⟨?_, ?_, ?_, ?_, ?_⟩
  · exact (c7_detect_format_amended "a.JSON".data (some "<zzz".data)).1 (by decide)
  · exact ((c7_detect_format_amended "noext".data none).2 (by decide)).1 rfl
  · exact (((c7_detect_format_amended "noext".data
      (some " <x".data)).2 (by decide)).2 " <x".data rfl).1 (by decide)
  · refine ((((c7_detect_format_amended "noext".data
      (some "k: v - w".data)).2 (by decide)).2 "k: v - w".data rfl).2.2.1 ?_
        (by decide) (by decide))
    intro c hc
    have h0 : (pyStrip "k: v - w".data).head? = some 'k' := by decide
    rw [h0] at hc
    cases hc
    decide
  · refine ((((c7_detect_format_amended "noext".data
      (some "plain".data)).2 (by decide)).2 "plain".data rfl).2.2.2 ?_ (by decide))
    intro c hc
    have h0 : (pyStrip "plain".data).head? = some 'p' := by decide
    rw [h0] at hc
    cases hc
    decide

/-! ## Claim C9: complexity-score monotonicity -/

theorem le_roundHalfEven (q : ℚ) : ⌊q⌋ ≤ roundHalfEven q := by
  simp only [roundHalfEven]
  split_ifs <;> omega

theorem roundHalfEven_le (q : ℚ) : roundHalfEven q ≤ ⌊q⌋ + 1 := by
  simp only [roundHalfEven]
  split_ifs <;> omega

theorem roundHalfEven_mono {q q' : ℚ} (h : q ≤ q') :
    roundHalfEven q ≤ roundHalfEven q' := by
  by_cases hf : ⌊q⌋ = ⌊q'⌋
  · simp only [roundHalfEven]
    rw [hf]
    have hab : q - (⌊q'⌋ : ℚ) ≤ q' - (⌊q'⌋ : ℚ) := by linarith
    split_ifs <;> first | omega | linarith
  · have hlt : ⌊q⌋ + 1 ≤ ⌊q'⌋ := by
      have := Int.floor_le_floor h
      omega
    calc roundHalfEven q ≤ ⌊q⌋ + 1 := roundHalfEven_le q
      _ ≤ ⌊q'⌋ := hlt
      _ ≤ roundHalfEven q' := le_roundHalfEven q'

theorem sizeMB_mono {a b : Nat} (h : a ≤ b) : sizeMB a ≤ sizeMB b := by
  unfold sizeMB
  have harg : (a : ℚ) * 100 / 1048576 ≤ (b : ℚ) * 100 / 1048576 := by
    have hab : (a : ℚ) ≤ (b : ℚ) := by exact_mod_cast h
    linarith
  have := roundHalfEven_mono harg
  have hcast : (roundHalfEven ((a : ℚ) * 100 / 1048576) : ℚ) ≤
      (roundHalfEven ((b : ℚ) * 100 / 1048576) : ℚ) := by exact_mod_cast this
  linarith

theorem utf8Len_append (a b : List Char) :
    utf8Len (a ++ b) = utf8Len a + utf8Len b := by
  simp [utf8Len]

theorem startsWithL_append (w s t : List Char) (h : startsWithL w s = true) :
    startsWithL w (s ++ t) = true := by
  induction w generalizing s with
  | nil => rfl
  | cons p ps ih =>
    cases s with
    | nil => cases h
    | cons c cs =>
      simp only [startsWithL, Bool.and_eq_true] at h
      simp only [List.cons_append, startsWithL, Bool.and_eq_true]
      exact ⟨h.1, ih cs h.2⟩

theorem startsWithL_length_le (w s : List Char) (h : startsWithL w s = true) :
    w.length ≤ s.length := by
  induction w generalizing s with
  | nil => simp
  | cons p ps ih =>
    cases s with
    | nil => cases h
    | cons c cs =>
      simp only [startsWithL, Bool.and_eq_true] at h
      simpa using ih cs h.2

theorem startsWithL_append_eq (w s t : List Char) (h : w.length ≤ s.length) :
    startsWithL w (s ++ t) = startsWithL w s := by
  induction w generalizing s with
  | nil => rfl
  | cons p ps ih =>
    cases s with
    | nil => simp at h
    | cons c corest =>
      simp only [List.cons_append, startsWithL]
      rw [show corest.append t = corest ++ t from rfl, ih corest (by simpa using h)]

theorem countSubGo_nil (w : List Char) (fuel : Nat) : countSubGo w fuel [] = 0 := by
  cases fuel <;> rfl

theorem countSubGo_zero_of_short (w : List Char) :
    ∀ (fuel : Nat) (s : List Char), s.length < w.length → countSubGo w fuel s = 0 := by
  intro fuel
  induction fuel with
  | zero => intro s _; rfl
  | succ f ih =>
    intro s hs
    cases s with
    | nil => rfl
    | cons c cs =>
      have hsw : ¬ startsWithL w (c :: cs) = true := fun hc =>
        absurd (startsWithL_length_le w (c :: cs) hc) (by omega)
      simp only [countSubGo, if_neg hsw]
      exact ih cs (by simp at hs ⊢; omega)

theorem countSubGo_mono (w : List Char) (hw : ¬ w = []) :
    ∀ (n : Nat) (s : List Char), s.length ≤ n →
      ∀ (fuel1 fuel2 : Nat) (t : List Char), s.length ≤ fuel1 →
        s.length + t.length ≤ fuel2 →
        countSubGo w fuel1 s ≤ countSubGo w fuel2 (s ++ t) := by
  intro n
  induction n with
  | zero =>
    intro s hs fuel1 fuel2 t _ _
    have : s = [] := List.length_eq_zero.mp (by omega)
    subst this
    simp [countSubGo_nil]
  | succ n ih =>
    intro s hs fuel1 fuel2 t hf1 hf2
    cases s with
    | nil => simp [countSubGo_nil]
    | cons c cs =>
      have hwlen : 1 ≤ w.length := by
        cases w with
        | nil => exact absurd rfl hw
        | cons _ _ => simp
      obtain ⟨f1, rfl⟩ : ∃ f1, fuel1 = f1 + 1 := by
        cases fuel1 with
        | zero => simp at hf1
        | succ f1 => exact ⟨f1, rfl⟩
      obtain ⟨f2, rfl⟩ : ∃ f2, fuel2 = f2 + 1 := by
        cases fuel2 with
        | zero => simp at hf2
        | succ f2 => exact ⟨f2, rfl⟩
      have hs' : cs.length ≤ n := by simp at hs; omega
      by_cases hsw : startsWithL w (c :: cs) = true
      · have hsw2 : startsWithL w (c :: (cs ++ t)) = true := by
          simpa [List.cons_append] using startsWithL_append w (c :: cs) t hsw
        have hwle : w.length ≤ (c :: cs).length := startsWithL_length_le w _ hsw
        have hL : countSubGo w (f1 + 1) (c :: cs) =
            1 + countSubGo w f1 ((c :: cs).drop w.length) := by
          simp only [countSubGo, if_pos hsw]
        have hR : countSubGo w (f2 + 1) (c :: (cs ++ t)) =
            1 + countSubGo w f2 ((c :: (cs ++ t)).drop w.length) := by
          simp only [countSubGo, if_pos hsw2]
        have hdrop : (c :: (cs ++ t)).drop w.length = (c :: cs).drop w.length ++ t := by
          have heq : c :: (cs ++ t) = (c :: cs) ++ t := by simp
          rw [heq, List.drop_append_of_le_length hwle]
        have hlen : ((c :: cs).drop w.length).length ≤ n := by
          rw [List.length_drop]
          simp
          omega
        have hIH := ih ((c :: cs).drop w.length) hlen f1 f2 t
          (by rw [List.length_drop]; simp at hf1 ⊢; omega)
          (by rw [List.length_drop]; simp at hf2 ⊢; omega)
        have hgoal : (c :: cs) ++ t = c :: (cs ++ t) := by simp
        rw [hgoal, hL, hR, hdrop]
        omega
      · by_cases hsw2 : startsWithL w ((c :: cs) ++ t) = true
        · have hshort : (c :: cs).length < w.length := by
            by_contra hge
            rw [startsWithL_append_eq w (c :: cs) t (by omega)] at hsw2
            exact hsw hsw2
          have h0 : countSubGo w (f1 + 1) (c :: cs) = 0 :=
            countSubGo_zero_of_short w _ _ hshort
          omega
        · have hL : countSubGo w (f1 + 1) (c :: cs) = countSubGo w f1 cs := by
            simp only [countSubGo, if_neg hsw]
          have hsw2' : ¬ startsWithL w (c :: (cs ++ t)) = true := by
            simpa [List.cons_append] using hsw2
          have hR : countSubGo w (f2 + 1) (c :: (cs ++ t)) =
              countSubGo w f2 (cs ++ t) := by
            simp only [countSubGo, if_neg hsw2']
          have hgoal : (c :: cs) ++ t = c :: (cs ++ t) := by simp
          rw [hgoal, hL, hR]
          exact ih cs hs' f1 f2 t (by simp at hf1; omega) (by simp at hf2; omega)

theorem countSub_mono (w s t : List Char) : countSub w s ≤ countSub w (s ++ t) := by
  by_cases hw : w = []
  · simp [countSub, hw]
  · simp only [countSub, if_neg hw]
    exact countSubGo_mono w hw s.length s (le_refl _) s.length (s ++ t).length t
      (le_refl _) (by simp)

theorem containsSub_nil_pat (s : List Char) : containsSub [] s = true := by
  cases s <;> simp [containsSub, startsWithL]

theorem containsSub_append (w s t : List Char) (h : containsSub w s = true) :
    containsSub w (s ++ t) = true := by
  induction s with
  | nil =>
    have hw : w = [] := by
      cases w with
      | nil => rfl
      | cons p ps => simp [containsSub, startsWithL] at h
    subst hw
    exact containsSub_nil_pat _
  | cons c cs ih =>
    simp only [containsSub, Bool.or_eq_true] at h
    rcases h with h | h
    · simp only [List.cons_append, containsSub, Bool.or_eq_true]
      exact Or.inl (by simpa [List.cons_append] using startsWithL_append w (c :: cs) t h)
    · simp only [List.cons_append, containsSub, Bool.or_eq_true]
      exact Or.inr (ih h)

theorem le_foldl_max (g : List Char → Nat) :
    ∀ (l : List (List Char)) (b : Nat), b ≤ l.foldl (fun mx x => max mx (g x)) b := by
  intro l
  induction l with
  | nil => intro b; simp
  | cons x xs ih =>
    intro b
    calc b ≤ max b (g x) := Nat.le_max_left _ _
      _ ≤ _ := ih _

theorem maxIndent_append_newline (a b : List Char) :
    maxIndent a ≤ maxIndent (a ++ '\n' :: b) := by
  unfold maxIndent
  rw [splitNl_append_newline, List.foldl_append]
  exact le_foldl_max _ _ _

/-- C9: appending config-item lines to a text never decreases the computed
complexity score: every component of the additive score (rounded size in
MB, config-item count, the `5gc_info`-gated network-function mention count,
maximum indentation) is monotone under appending lines. -/
theorem c9_complexity_monotone (content : List Char) (extra : List (List Char))
    (hextra : ∀ l ∈ extra, isConfigItemLine l = true ∧ '\n' ∉ l) :
    complexity_score content ≤
      complexity_score (content ++ '\n' :: joinNl extra) := by
  have hform : ∀ c : List Char, complexity_score c =
      ((if sizeMB (utf8Len c) > 10 then 30
        else if sizeMB (utf8Len c) > 1 then 10 else 0) +
       (if (splitNl c).countP (fun l => isConfigItemLine l) > 1000 then 30
        else if (splitNl c).countP (fun l => isConfigItemLine l) > 100 then 10 else 0) +
       (if containsSub "5gc_info".data c then
          if countSub "AMF".data c + countSub "SMF".data c + countSub "UPF".data c > 10
          then 20 else 0
        else 0) +
       (if maxIndent c > 20 then 15 else 0)) := fun c => rfl
  rw [hform, hform]
  have hbytes : utf8Len content ≤ utf8Len (content ++ '\n' :: joinNl extra) := by
    rw [utf8Len_append]
    omega
  have hsize := sizeMB_mono hbytes
  have hitems : (splitNl content).countP (fun l => isConfigItemLine l) ≤
      (splitNl (content ++ '\n' :: joinNl extra)).countP (fun l => isConfigItemLine l) := by
    rw [splitNl_append_newline, List.countP_append]
    omega
  have hgate : containsSub "5gc_info".data content = true →
      containsSub "5gc_info".data (content ++ '\n' :: joinNl extra) = true :=
    containsSub_append _ _ _
  have hAMF := countSub_mono "AMF".data content ('\n' :: joinNl extra)
  have hSMF := countSub_mono "SMF".data content ('\n' :: joinNl extra)
  have hUPF := countSub_mono "UPF".data content ('\n' :: joinNl extra)
  have hind := maxIndent_append_newline content (joinNl extra)
  have h1 : (if sizeMB (utf8Len content) > 10 then (30:Nat)
      else if sizeMB (utf8Len content) > 1 then 10 else 0) ≤
      (if sizeMB (utf8Len (content ++ '\n' :: joinNl extra)) > 10 then 30
      else if sizeMB (utf8Len (content ++ '\n' :: joinNl extra)) > 1 then 10 else 0) := by
    split_ifs <;> first | omega | linarith
  have h2 : (if (splitNl content).countP (fun l => isConfigItemLine l) > 1000 then (30:Nat)
      else if (splitNl content).countP (fun l => isConfigItemLine l) > 100 then 10 else 0) ≤
      (if (splitNl (content ++ '\n' :: joinNl extra)).countP
          (fun l => isConfigItemLine l) > 1000 then 30
      else if (splitNl (content ++ '\n' :: joinNl extra)).countP
          (fun l => isConfigItemLine l) > 100 then 10 else 0) := by
    split_ifs <;> omega
  have h3 : (if containsSub "5gc_info".data content then
        if countSub "AMF".data content + countSub "SMF".data content +
          countSub "UPF".data content > 10 then (20:Nat) else 0
      else 0) ≤
      (if containsSub "5gc_info".data (content ++ '\n' :: joinNl extra) then
        if countSub "AMF".data (content ++ '\n' :: joinNl extra) +
          countSub "SMF".data (content ++ '\n' :: joinNl extra) +
          countSub "UPF".data (content ++ '\n' :: joinNl extra) > 10 then 20 else 0
      else 0) := by
    by_cases hg : containsSub "5gc_info".data content = true
    · rw [if_pos hg, if_pos (hgate hg)]
      split_ifs <;> omega
    · rw [if_neg hg]
      omega
  have h4 : (if maxIndent content > 20 then (15:Nat) else 0) ≤
      (if maxIndent (content ++ '\n' :: joinNl extra) > 20 then 15 else 0) := by
    split_ifs <;> omega
  omega

/-- C9 witness: a concrete base text extended by two config-item lines. -/
theorem c9_complexity_monotone_witness :
    complexity_score "a=1\nb:2".data ≤
      complexity_score ("a=1\nb:2".data ++ '\n' :: joinNl ["c=3".data, "d:4".data]) :=
  c9_complexity_monotone "a=1\nb:2".data ["c=3".data, "d:4".data] (by decide)

/-! ## Claim C3: merge round trip for fixed_lines and fixed_size -/

theorem chunk_text_fixed_size (cfg : ChunkCfg) (t : List Char)
    (hs : cfg.strategy = "fixed_size".data) (he : cfg.enabled = true) :
    chunk_text cfg t = .ok (fixed_size_chunking cfg t) := by
  have h1 : ¬ cfg.strategy = "smart".data := by rw [hs]; decide
  have h2 : ¬ cfg.strategy = "fixed_lines".data := by rw [hs]; decide
  simp [chunk_text, he, hs, h1, h2]

theorem insertAfterEq_append (key : ConfigChunk → Nat) (acc : List ConfigChunk)
    (c : ConfigChunk) (h : ∀ d ∈ acc, key d ≤ key c) :
    insertAfterEq key acc c = acc ++ [c] := by
  induction acc with
  | nil => rfl
  | cons d ds ih =>
    simp only [insertAfterEq, if_pos (h d (by simp))]
    rw [ih (fun x hx => h x (List.mem_cons_of_mem _ hx))]
    rfl

theorem foldl_insertAfterEq (key : ConfigChunk → Nat) :
    ∀ (l acc : List ConfigChunk),
      (∀ d ∈ acc, ∀ x ∈ l, key d ≤ key x) →
      l.Pairwise (fun a b => key a ≤ key b) →
      l.foldl (insertAfterEq key) acc = acc ++ l := by
  intro l
  induction l with
  | nil => intro acc _ _; simp
  | cons c cs ih =>
    intro acc hcross hpw
    have hstep : insertAfterEq key acc c = acc ++ [c] :=
      insertAfterEq_append key acc c (fun d hd => hcross d hd c (by simp))
    simp only [List.foldl_cons, hstep]
    rw [ih (acc ++ [c])]
    · simp
    · intro d hd x hx
      rcases List.mem_append.mp hd with hd | hd
      · exact hcross d hd x (List.mem_cons_of_mem _ hx)
      · simp at hd
        subst hd
        exact (List.pairwise_cons.mp hpw).1 x hx
    · exact (List.pairwise_cons.mp hpw).2

theorem sortByKey_of_pairwise (key : ConfigChunk → Nat) (l : List ConfigChunk)
    (h : l.Pairwise (fun a b => key a ≤ key b)) : sortByKey key l = l := by
  unfold sortByKey
  simpa using foldl_insertAfterEq key l [] (by simp) h

theorem merge_fold_no_overlap :
    ∀ (chunks : List ConfigChunk) (acc : List (List Char)) (n : Nat),
      (∀ c ∈ chunks, c.overlap_start = none) →
      (chunks.foldl merge_step (acc, n)).1 =
        acc ++ chunks.flatMap (fun c => splitNl c.content) := by
  intro chunks
  induction chunks with
  | nil => intro acc n _; simp
  | cons c cs ih =>
    intro acc n h
    have hc : c.overlap_start = none := h c (by simp)
    have hstep : merge_step (acc, n) c = (acc ++ splitNl c.content, c.end_line) := by
      simp [merge_step, hc]
    simp only [List.foldl_cons, hstep]
    rw [ih _ _ (fun x hx => h x (List.mem_cons_of_mem _ hx))]
    simp

theorem fixed_size_go_spec (target : Nat) :
    ∀ (rem : List Line) (lineNo : Nat) (st : FsState),
      (∀ l ∈ rem, '\n' ∉ l) → (∀ l ∈ st.cur, '\n' ∉ l) →
      st.chunks.map (fun c => c.chunk_id) = List.range st.chunks.length →
      (∀ c ∈ st.chunks, c.overlap_start = none) →
      ((fixed_size_go target rem lineNo st).flatMap (fun c => splitNl c.content) =
         st.chunks.flatMap (fun c => splitNl c.content) ++ st.cur ++ rem ∧
       (fixed_size_go target rem lineNo st).map (fun c => c.chunk_id) =
         List.range (fixed_size_go target rem lineNo st).length ∧
       ∀ c ∈ fixed_size_go target rem lineNo st, c.overlap_start = none) := by
  intro rem
  induction rem with
  | nil =>
    intro lineNo st hnl hcur hids hov
    by_cases hc : st.cur = []
    · simp only [fixed_size_go, if_pos hc]
      refine ⟨?_, hids, hov⟩
      simp [hc]
    · simp only [fixed_size_go, if_neg hc]
      refine ⟨?_, ?_, ?_⟩
      · rw [List.flatMap_append]
        simp [fs_flush_chunk, splitNl_joinNl st.cur hc hcur]
      · rw [List.map_append, hids, List.length_append]
        simp [fs_flush_chunk, List.range_succ]
      · intro c hcmem
        rcases List.mem_append.mp hcmem with hm | hm
        · exact hov c hm
        · simp [fs_flush_chunk] at hm
          subst hm
          rfl
  | cons line rest ih =>
    intro lineNo st hnl hcur hids hov
    have hline : '\n' ∉ line := hnl line (by simp)
    have hrest : ∀ l ∈ rest, '\n' ∉ l := fun l hl => hnl l (List.mem_cons_of_mem _ hl)
    by_cases hcond : st.curSize + utf8Len line > target ∧ st.cur ≠ []
    · have hcur2 : ∀ l ∈ (fs_flush_state st line lineNo).cur, '\n' ∉ l := by
        intro l hl
        simp [fs_flush_state] at hl
        subst hl
        exact hline
      have hids2 : (fs_flush_state st line lineNo).chunks.map (fun c => c.chunk_id) =
          List.range (fs_flush_state st line lineNo).chunks.length := by
        simp only [fs_flush_state, List.map_append, hids, List.length_append]
        simp [fs_flush_chunk, List.range_succ]
      have hov2 : ∀ c ∈ (fs_flush_state st line lineNo).chunks, c.overlap_start = none := by
        intro c hc
        simp only [fs_flush_state] at hc
        rcases List.mem_append.mp hc with hm | hm
        · exact hov c hm
        · simp [fs_flush_chunk] at hm
          subst hm
          rfl
      have happly := ih (lineNo + 1) (fs_flush_state st line lineNo) hrest hcur2 hids2 hov2
      simp only [fixed_size_go, if_pos hcond]
      refine ⟨?_, happly.2.1, happly.2.2⟩
      rw [happly.1]
      simp only [fs_flush_state, List.flatMap_append]
      simp [fs_flush_chunk, splitNl_joinNl st.cur hcond.2 hcur]
  -- no-cut branch
    · have hcur2 : ∀ l ∈ (fs_keep_state st line).cur, '\n' ∉ l := by
        intro l hl
        simp only [fs_keep_state] at hl
        rcases List.mem_append.mp hl with hm | hm
        · exact hcur l hm
        · simp at hm
          subst hm
          exact hline
      have happly := ih (lineNo + 1) (fs_keep_state st line) hrest hcur2 hids hov
      simp only [fixed_size_go, if_neg hcond]
      refine ⟨?_, happly.2.1, happly.2.2⟩
      rw [happly.1]
      simp [fs_keep_state]

theorem pairwise_le_of_ids_range (l : List ConfigChunk)
    (h : l.map (fun c => c.chunk_id) = List.range l.length) :
    l.Pairwise (fun a b => a.chunk_id ≤ b.chunk_id) := by
  have hpw : (l.map (fun c => c.chunk_id)).Pairwise (· ≤ ·) := by
    rw [h]
    exact (List.pairwise_lt_range _).imp le_of_lt
  exact (List.pairwise_map.mp hpw)

/-- Round trip of fixed-size chunking: the chunks partition the lines and
carry no overlap markers, so the merge reassembles the exact text. -/
theorem merge_fixed_size_chunking (cfg : ChunkCfg) (t : List Char) :
    merge_chunks (fixed_size_chunking cfg t) = t := by
  have hspec := fixed_size_go_spec (cfg.chunk_size_kb * 1024) (splitNl t) 1
    { chunks := [], cur := [], curSize := 0, curStart := 1 }
    (mem_splitNl_no_newline t) (by simp) (by simp) (by simp)
  unfold fixed_size_chunking
  unfold merge_chunks
  rw [sortByKey_of_pairwise _ _ (pairwise_le_of_ids_range _ hspec.2.1)]
  rw [merge_fold_no_overlap _ [] 0 hspec.2.2]
  rw [List.nil_append] at *
  rw [hspec.1]
  simp [joinNl_splitNl]

theorem fl_chunk_id (cfg : ChunkCfg) (lines : List (List Char)) (s k : Nat) :
    (fl_chunk cfg lines s k).chunk_id = k := rfl

theorem fl_merge_fold (cfg : ChunkCfg) (lines : List (List Char)) (s : Nat)
    (hseq : s = cfg.chunk_size_lines - cfg.overlap_lines)
    (hov : cfg.overlap_lines < cfg.chunk_size_lines)
    (hnl : ∀ l ∈ lines, '\n' ∉ l) :
    ∀ m, m ≤ (lines.length + s - 1) / s →
      ((List.range m).map (fl_chunk cfg lines s)).foldl merge_step ([], 0) =
        (lines.take (flE cfg.chunk_size_lines s lines.length m),
         flE cfg.chunk_size_lines s lines.length m) := by
  have hs1 : 1 ≤ s := by omega
  have hW1 : 1 ≤ cfg.chunk_size_lines := by omega
  intro m
  induction m with
  | zero =>
    intro _
    simp [flE]
  | succ m ih =>
    intro hm
    have hmc : m ≤ (lines.length + s - 1) / s := by omega
    have hiL : m * s < lines.length :=
      count_window_lt lines.length s m ((lines.length + s - 1) / s) hs1 rfl (by omega)
    rw [show m + 1 = Nat.succ m from rfl, List.range_succ, List.map_append,
      List.foldl_append, ih hmc]
    simp only [List.map_cons, List.map_nil, List.foldl_cons, List.foldl_nil]
    have hsplit : splitNl (fl_chunk cfg lines s m).content =
        (lines.drop (m * s)).take
          (min (m * s + cfg.chunk_size_lines) lines.length - m * s) :=
      fl_chunk_lines_eq cfg lines s m hW1 hiL hnl
    have hstart : (fl_chunk cfg lines s m).start_line = m * s + 1 := rfl
    have hend : (fl_chunk cfg lines s m).end_line =
        min (m * s + cfg.chunk_size_lines) lines.length := rfl
    have htake : lines.take (min (m * s + cfg.chunk_size_lines) lines.length) =
        lines.take (m * s) ++ (lines.drop (m * s)).take
          (min (m * s + cfg.chunk_size_lines) lines.length - m * s) := by
      rw [← List.take_add]
      congr 1
      omega
    cases hm0 : m with
    | zero =>
      subst hm0
      have hovs : (fl_chunk cfg lines s 0).overlap_start = none := by
        simp [fl_chunk]
      simp only [merge_step, hovs, hsplit, hend]
      have hE1 : flE cfg.chunk_size_lines s lines.length 1 =
          min (0 * s + cfg.chunk_size_lines) lines.length := by
        simp [flE]
      have hE0 : flE cfg.chunk_size_lines s lines.length 0 = 0 := by simp [flE]
      rw [hE0, hE1]
      simp only [Nat.zero_mul] at htake ⊢
      rw [htake]
    | succ m2 =>
      rw [← hm0]
      have hm1 : 1 ≤ m := by omega
      have hipos : 0 < m * s := Nat.mul_pos (by omega) (by omega)
      have hovs : (fl_chunk cfg lines s m).overlap_start =
          some (max 1 (m * s + 1 - cfg.overlap_lines)) := by
        simp [fl_chunk, hipos]
      have hEm : flE cfg.chunk_size_lines s lines.length m =
          min (m * s + cfg.overlap_lines) lines.length := by
        simp only [flE, if_neg (by omega : ¬ m = 0)]
        congr 1
        have hms : (m - 1) * s = m * s - s := by
          cases m with
          | zero => omega
          | succ mm => simp [Nat.succ_sub_one, Nat.succ_mul]
        have hsm : s ≤ m * s := Nat.le_mul_of_pos_left s (by omega)
        omega
      have hEm1 : flE cfg.chunk_size_lines s lines.length (m + 1) =
          min (m * s + cfg.chunk_size_lines) lines.length := by
        simp [flE]
      simp only [merge_step, hovs, hsplit, hstart, hend, hEm, hEm1]
      by_cases hO : cfg.overlap_lines = 0
      · -- no configured overlap: `overlap_start = start_line > last_end_line`,
        -- the skip condition is false and the chunk is appended whole
        have hcond : ¬ (max 1 (m * s + 1 - cfg.overlap_lines) ≠ 0 ∧
            max 1 (m * s + 1 - cfg.overlap_lines) ≤
              min (m * s + cfg.overlap_lines) lines.length) := by
          rw [hO]
          omega
        rw [if_neg hcond]
        have hEi : min (m * s + cfg.overlap_lines) lines.length = m * s := by
          rw [hO]
          omega
        rw [hEi, Prod.mk.injEq]
        exact ⟨htake.symm, rfl⟩
      · -- configured overlap: the leading `E - i` lines are dropped
        have hcond : max 1 (m * s + 1 - cfg.overlap_lines) ≠ 0 ∧
            max 1 (m * s + 1 - cfg.overlap_lines) ≤
              min (m * s + cfg.overlap_lines) lines.length := by
          constructor
          · omega
          · omega
        rw [if_pos hcond]
        have hk : ((min (m * s + cfg.overlap_lines) lines.length : Nat) : Int) -
            ((m * s + 1 : Nat) : Int) + 1 =
            ((min (m * s + cfg.overlap_lines) lines.length - m * s : Nat) : Int) := by
          push_cast
          omega
        rw [hk]
        have hslice : pySliceFrom
            ((min (m * s + cfg.overlap_lines) lines.length - m * s : Nat) : Int)
            ((lines.drop (m * s)).take
              (min (m * s + cfg.chunk_size_lines) lines.length - m * s)) =
            (lines.drop (min (m * s + cfg.overlap_lines) lines.length)).take
              (min (m * s + cfg.chunk_size_lines) lines.length -
                min (m * s + cfg.overlap_lines) lines.length) := by
          unfold pySliceFrom
          rw [if_pos (by positivity)]
          rw [Int.toNat_natCast]
          rw [List.drop_take, List.drop_drop]
          have hmsE : m * s ≤ min (m * s + cfg.overlap_lines) lines.length :=
            le_min (Nat.le_add_right _ _) (le_of_lt hiL)
          have hEe2 : min (m * s + cfg.overlap_lines) lines.length ≤
              min (m * s + cfg.chunk_size_lines) lines.length :=
            min_le_min (Nat.add_le_add_left (le_of_lt hov) (m * s)) le_rfl
          generalize hgE : min (m * s + cfg.overlap_lines) lines.length = E2
            at hmsE hEe2 ⊢
          generalize hge : min (m * s + cfg.chunk_size_lines) lines.length = e2
            at hEe2 ⊢
          generalize hgi : m * s = i2 at hmsE ⊢
          congr 1
          · omega
          · congr 1
            omega
        rw [hslice]
        rw [Prod.mk.injEq]
        refine ⟨?_, rfl⟩
        rw [← List.take_add]
        have hEe2 : min (m * s + cfg.overlap_lines) lines.length ≤
            min (m * s + cfg.chunk_size_lines) lines.length :=
          min_le_min (Nat.add_le_add_left (le_of_lt hov) (m * s)) le_rfl
        generalize hgE : min (m * s + cfg.overlap_lines) lines.length = E2
          at hEe2 ⊢
        generalize hge : min (m * s + cfg.chunk_size_lines) lines.length = e2
          at hEe2 ⊢
        congr 1
        omega

/-- Round trip of fixed-lines chunking with `overlap < window`: the merge
drops each chunk's leading overlap, leaving exactly the source lines. -/
theorem merge_fixed_lines_chunking (cfg : ChunkCfg) (t : List Char)
    (hov : cfg.overlap_lines < cfg.chunk_size_lines) :
    (fixed_lines_chunking cfg t).map merge_chunks = Except.ok t := by
  rw [fixed_lines_chunking_pos cfg t hov]
  simp only [Except.map]
  congr 1
  unfold merge_chunks
  have hids : (((List.range
      (((splitNl t).length + (cfg.chunk_size_lines - cfg.overlap_lines) - 1) /
        (cfg.chunk_size_lines - cfg.overlap_lines))).map
      (fl_chunk cfg (splitNl t) (cfg.chunk_size_lines - cfg.overlap_lines))).map
        (fun c => c.chunk_id)) = List.range (((List.range
      (((splitNl t).length + (cfg.chunk_size_lines - cfg.overlap_lines) - 1) /
        (cfg.chunk_size_lines - cfg.overlap_lines))).map
      (fl_chunk cfg (splitNl t) (cfg.chunk_size_lines - cfg.overlap_lines))).length) := by
    rw [List.map_map, List.length_map, List.length_range]
    have hcomp : ((fun c => c.chunk_id) ∘
        fl_chunk cfg (splitNl t) (cfg.chunk_size_lines - cfg.overlap_lines)) =
        fun k => k := rfl
    rw [hcomp]
    exact List.map_id' _
  rw [sortByKey_of_pairwise _ _ (pairwise_le_of_ids_range _ hids)]
  rw [fl_merge_fold cfg (splitNl t) (cfg.chunk_size_lines - cfg.overlap_lines)
    rfl hov (mem_splitNl_no_newline t) _ le_rfl]
  have hflE : flE cfg.chunk_size_lines (cfg.chunk_size_lines - cfg.overlap_lines)
      (splitNl t).length
      (((splitNl t).length + (cfg.chunk_size_lines - cfg.overlap_lines) - 1) /
        (cfg.chunk_size_lines - cfg.overlap_lines)) = (splitNl t).length := by
    have hs1 : 1 ≤ cfg.chunk_size_lines - cfg.overlap_lines := by omega
    have hL1 : 0 < (splitNl t).length := length_splitNl_pos t
    have hq1 : 1 ≤ (((splitNl t).length + (cfg.chunk_size_lines - cfg.overlap_lines) - 1) /
        (cfg.chunk_size_lines - cfg.overlap_lines)) :=
      Nat.one_le_div_iff (by omega) |>.mpr (by omega)
    have h1 := Nat.div_add_mod
      ((splitNl t).length + (cfg.chunk_size_lines - cfg.overlap_lines) - 1)
      (cfg.chunk_size_lines - cfg.overlap_lines)
    have h2 := Nat.mod_lt
      ((splitNl t).length + (cfg.chunk_size_lines - cfg.overlap_lines) - 1)
      (show 0 < cfg.chunk_size_lines - cfg.overlap_lines by omega)
    have hLq : (splitNl t).length ≤ (cfg.chunk_size_lines - cfg.overlap_lines) *
        (((splitNl t).length + (cfg.chunk_size_lines - cfg.overlap_lines) - 1) /
          (cfg.chunk_size_lines - cfg.overlap_lines)) := by omega
    have hcm : (cfg.chunk_size_lines - cfg.overlap_lines) *
        (((splitNl t).length + (cfg.chunk_size_lines - cfg.overlap_lines) - 1) /
          (cfg.chunk_size_lines - cfg.overlap_lines)) =
        (((splitNl t).length + (cfg.chunk_size_lines - cfg.overlap_lines) - 1) /
          (cfg.chunk_size_lines - cfg.overlap_lines)) *
        (cfg.chunk_size_lines - cfg.overlap_lines) := Nat.mul_comm _ _
    have hqs : ((((splitNl t).length + (cfg.chunk_size_lines - cfg.overlap_lines) - 1) /
          (cfg.chunk_size_lines - cfg.overlap_lines)) - 1) *
        (cfg.chunk_size_lines - cfg.overlap_lines) =
        (((splitNl t).length + (cfg.chunk_size_lines - cfg.overlap_lines) - 1) /
          (cfg.chunk_size_lines - cfg.overlap_lines)) *
        (cfg.chunk_size_lines - cfg.overlap_lines) -
        (cfg.chunk_size_lines - cfg.overlap_lines) := by
      cases hqe : (((splitNl t).length + (cfg.chunk_size_lines - cfg.overlap_lines) - 1) /
          (cfg.chunk_size_lines - cfg.overlap_lines)) with
      | zero => omega
      | succ qq => simp [Nat.succ_sub_one, Nat.succ_mul]
    simp only [flE, if_neg (by omega : ¬ (((splitNl t).length +
      (cfg.chunk_size_lines - cfg.overlap_lines) - 1) /
        (cfg.chunk_size_lines - cfg.overlap_lines)) = 0)]
    have hle : (splitNl t).length ≤
        ((((splitNl t).length + (cfg.chunk_size_lines - cfg.overlap_lines) - 1) /
          (cfg.chunk_size_lines - cfg.overlap_lines)) - 1) *
        (cfg.chunk_size_lines - cfg.overlap_lines) + cfg.chunk_size_lines := by omega
    omega
  rw [hflE, List.take_length, joinNl_splitNl]

/-- C3: for the `fixed_lines` strategy (with overlap smaller than the
window) and the `fixed_size` strategy, `merge_chunks` applied to the full
output of `chunk_text` reconstructs the original text exactly. -/
theorem c3_merge_roundtrip (cfgL cfgS : ChunkCfg) (t : List Char)
    (hsL : cfgL.strategy = "fixed_lines".data) (heL : cfgL.enabled = true)
    (hovL : cfgL.overlap_lines < cfgL.chunk_size_lines)
    (hsS : cfgS.strategy = "fixed_size".data) (heS : cfgS.enabled = true) :
    (chunk_text cfgL t).map merge_chunks = Except.ok t ∧
    (chunk_text cfgS t).map merge_chunks = Except.ok t := by
  constructor
  · rw [chunk_text_fixed_lines cfgL t hsL heL]
    exact merge_fixed_lines_chunking cfgL t hovL
  · rw [chunk_text_fixed_size cfgS t hsS heS]
    simp only [Except.map]
    rw [merge_fixed_size_chunking]

theorem c3_merge_roundtrip_witness :
    (c3cfgL.strategy = "fixed_lines".data ∧ c3cfgL.enabled = true ∧
      c3cfgL.overlap_lines < c3cfgL.chunk_size_lines ∧
      c3cfgS.strategy = "fixed_size".data ∧ c3cfgS.enabled = true) ∧
    (chunk_text c3cfgL "a\nbb\nccc\nd\ne".data).map merge_chunks =
      Except.ok "a\nbb\nccc\nd\ne".data ∧
    (chunk_text c3cfgS "a\nbb\nccc\nd\ne".data).map merge_chunks =
      Except.ok "a\nbb\nccc\nd\ne".data :=
  ⟨⟨rfl, rfl, by decide, rfl, rfl⟩,
    c3_merge_roundtrip c3cfgL c3cfgS "a\nbb\nccc\nd\ne".data
      rfl rfl (by decide) rfl rfl⟩
